import Mathlib

/-!
Seeded, tile-parallel disparity correlation (`src/asp/Tools/stereo_corr.cc`).

A shallow embedding of the per-tile alignment and search-range logic of
`stereo_corr.cc`.  C++ `double`/`float` values are idealised as rationals, so
rounding error, NaN and infinities are outside the model; C++ `int` values are
integers, and the tile size computed in `main`, whose product can leave the range of
a 32-bit `int`, is reduced by `wrapInt32`.  Out-parameters of the C++ functions become fields of the returned
record.
-/

namespace StereoCorr

/-! ## Data model -/

/-- A `vw::Vector2` (also used for `Vector2f`): a pair of reals. -/
structure Vector2 where
  x : ℚ
  y : ℚ
deriving DecidableEq

/-- A `vw::Vector2i`: a pair of integers. -/
structure Vector2i where
  x : Int
  y : Int
deriving DecidableEq

/-- A `vw::Vector3`: a homogeneous image point. -/
structure Vector3 where
  x : ℚ
  y : ℚ
  z : ℚ
deriving DecidableEq

/-- A 3x3 `vw::Matrix<double>`; field `aRC` is the entry `(R, C)`. -/
structure Matrix3 where
  a00 : ℚ
  a01 : ℚ
  a02 : ℚ
  a10 : ℚ
  a11 : ℚ
  a12 : ℚ
  a20 : ℚ
  a21 : ℚ
  a22 : ℚ
deriving DecidableEq

/-- The value of `math::identity_matrix<3>()`. -/
def identity_matrix : Matrix3 := ⟨1, 0, 0, 0, 1, 0, 0, 0, 1⟩

/-- The product `M * v` of a 3x3 matrix and a 3-vector. -/
def Matrix3.mulVec (m : Matrix3) (v : Vector3) : Vector3 :=
  ⟨m.a00 * v.x + m.a01 * v.y + m.a02 * v.z,
   m.a10 * v.x + m.a11 * v.y + m.a12 * v.z,
   m.a20 * v.x + m.a21 * v.y + m.a22 * v.z⟩

/-- The in-place division `v /= s` of a `Vector3` by a scalar. -/
def Vector3.divScalar (v : Vector3) (s : ℚ) : Vector3 := ⟨v.x / s, v.y / s, v.z / s⟩

/-- A `vw::ip::InterestPoint`, reduced to its image position. -/
structure InterestPoint where
  x : ℚ
  y : ℚ
deriving DecidableEq

/-- A `vw::BBox2i`: `min` is inclusive, `max` is exclusive. -/
structure BBox2i where
  min : Vector2i
  max : Vector2i
deriving DecidableEq

/-- A `vw::BBox2f` / `BBox2`. -/
structure BBox2f where
  min : Vector2
  max : Vector2
deriving DecidableEq

/-- The four-argument constructor `BBox2i(minx, miny, width, height)`. -/
def BBox2i.ofMinSize (minx miny width height : Int) : BBox2i :=
  ⟨⟨minx, miny⟩, ⟨minx + width, miny + height⟩⟩

/-- The four-argument constructor `BBox2f(minx, miny, width, height)`. -/
def BBox2f.ofMinSize (minx miny width height : ℚ) : BBox2f :=
  ⟨⟨minx, miny⟩, ⟨minx + width, miny + height⟩⟩

/-- The method `BBox::width()`. -/
def BBox2i.width (b : BBox2i) : Int := b.max.x - b.min.x

/-- The method `BBox::height()`. -/
def BBox2i.height (b : BBox2i) : Int := b.max.y - b.min.y

/-- The method `BBox::expand(offset)`: moves every face outwards by `offset`. -/
def BBox2i.expand (b : BBox2i) (offset : Int) : BBox2i :=
  ⟨⟨b.min.x - offset, b.min.y - offset⟩, ⟨b.max.x + offset, b.max.y + offset⟩⟩

/-- The method `BBox::crop(bbox)`: clamps each face to `bbox`. -/
def BBox2i.crop (b c : BBox2i) : BBox2i :=
  ⟨⟨if b.min.x < c.min.x then c.min.x else b.min.x,
    if b.min.y < c.min.y then c.min.y else b.min.y⟩,
   ⟨if b.max.x > c.max.x then c.max.x else b.max.x,
    if b.max.y > c.max.y then c.max.y else b.max.y⟩⟩

/-- The function `bounding_box(image)` of an image with `cols` columns and `rows` rows. -/
def bounding_box (cols rows : Int) : BBox2i := BBox2i.ofMinSize 0 0 cols rows

/-- The method `HomographyTransform(H).forward(p)`. -/
def HomographyTransform.forward (H : Matrix3) (p : Vector2) : Vector2 :=
  let w := H.a20 * p.x + H.a21 * p.y + H.a22
  ⟨(H.a00 * p.x + H.a01 * p.y + H.a02) / w, (H.a10 * p.x + H.a11 * p.y + H.a12) / w⟩

/-- A `PixelMask<Vector2f>`: a disparity with its validity flag. -/
structure PixelMaskVector2f where
  child : Vector2
  valid : Bool
deriving DecidableEq

/-! ## `SeededCorrelatorView::prerasterize`: tile frames and the inverse-warp loop -/

/-- The constant `margin` of `prerasterize` (line 874). -/
def margin : Int := 50

/-- The box `newBBox` of `prerasterize` (lines 875-877) for the tile `bbox` of a left image
with `cols` columns and `rows` rows. -/
def newBBox (bbox : BBox2i) (cols rows : Int) : BBox2i :=
  ((BBox2i.ofMinSize bbox.min.x bbox.min.y bbox.max.x bbox.max.y).expand margin).crop
    (bounding_box cols rows)

/-- The body of the loop of `prerasterize` (lines 1076-1093) at the tile-local pixel
`(i, j)`: the pixel written to `stereo_result_corrected(i, j)`.  The images
`stereo_result_inv` and `stereo_result_mask_inv` are given as functions of the column
and row index. -/
def stereo_result_corrected (align_left_matrix : Matrix3)
    (stereo_result_inv : Int → Int → Vector2) (stereo_result_mask_inv : Int → Int → Nat)
    (i j : Int) : PixelMaskVector2f :=
  let pixel_L_prime := HomographyTransform.forward align_left_matrix ⟨i, j⟩
  let dx := (stereo_result_inv (i + margin) (j + margin)).x
  let dy := (stereo_result_inv (i + margin) (j + margin)).y
  let pixel_R_prime : Vector2 := ⟨pixel_L_prime.x + dx, pixel_L_prime.y + dy⟩
  let new_disp : Vector2 := ⟨pixel_R_prime.x - i, pixel_R_prime.y - j⟩
  ⟨new_disp, decide (stereo_result_mask_inv (i + margin) (j + margin) ≠ 0)⟩

/-- The coordinate, in the frame of the expanded tile `newBBox` (the frame of
`tile_left_image`, on which the left transform is fitted and in which
`stereo_result_inv` is rendered), of the tile-local pixel `(i, j)` of `bbox`. -/
def expandedFramePixel (bbox : BBox2i) (cols rows : Int) (i j : Int) : Vector2i :=
  ⟨bbox.min.x + i - (newBBox bbox cols rows).min.x,
   bbox.min.y + j - (newBBox bbox cols rows).min.y⟩

/-- The pixel that the inverse-warp step is specified to emit for the pixel whose
expanded-frame coordinate is `p`: forward map, lookup and subtraction all at `p`. -/
def specCorrectedPixel (H_L : Matrix3) (d : Int → Int → Vector2) (mask : Int → Int → Nat)
    (p : Vector2i) : PixelMaskVector2f :=
  ⟨⟨(HomographyTransform.forward H_L ⟨p.x, p.y⟩).x + (d p.x p.y).x - p.x,
    (HomographyTransform.forward H_L ⟨p.x, p.y⟩).y + (d p.x p.y).y - p.y⟩,
   decide (mask p.x p.y ≠ 0)⟩

/-! ## Alignment quality checks (`calcAverageDeltaY`, `check_homography_matrix`) -/

/-- The function `iplist_to_vectorlist`: each interest point becomes `(x, y, 1)`. -/
def iplist_to_vectorlist (iplist : List InterestPoint) : List Vector3 :=
  iplist.map fun p => ⟨p.x, p.y, 1⟩

/-- The accumulation loop of `calcAverageDeltaY` on `Vector3` lists (lines 1918-1919),
started with `accuDiff = acc`.  It runs over the left points and reads the right point of
the same index; reading past the end of a shorter right list is undefined in C++, and the
model stops there. -/
def accuDeltaY (acc : ℚ) : List Vector3 → List Vector3 → ℚ
  | l :: ls, r :: rs => accuDeltaY (acc + |l.y - r.y|) ls rs
  | _, _ => acc

/-- The function `calcAverageDeltaY` on `Vector3` lists (lines 1913-1923). -/
def calcAverageDeltaY (left_points right_points : List Vector3) : ℚ :=
  if left_points.length ≠ 0 then
    accuDeltaY 0 left_points right_points / left_points.length
  else
    -1

/-- The accumulation loop of `calcAverageDeltaY` on interest points (lines 1906-1907),
with the same convention as `accuDeltaY`. -/
def accuDeltaY_ip (acc : ℚ) : List InterestPoint → List InterestPoint → ℚ
  | l :: ls, r :: rs => accuDeltaY_ip (acc + |l.y - r.y|) ls rs
  | _, _ => acc

/-- The function `calcAverageDeltaY` on interest points (lines 1901-1911). -/
def calcAverageDeltaY_ip (left_points right_points : List InterestPoint) : ℚ :=
  if left_points.length ≠ 0 then
    accuDeltaY_ip 0 left_points right_points / left_points.length
  else
    -1

/-- The determinant `M(0,0)*M(1,1) - M(0,1)*M(1,0)` of the upper-left 2x2 part. -/
def det2 (m : Matrix3) : ℚ := m.a00 * m.a11 - m.a01 * m.a10

/-- The normalisation step shared by the point loops (lines 1808-1811, 1873-1876,
1935-1938): both points are divided by their own `z`, unless one `z` is zero, in which
case both are left as they are. -/
def normalizePair (left right : Vector3) : Vector3 × Vector3 :=
  if right.z = 0 ∨ left.z = 0 then (left, right)
  else (left.divScalar left.z, right.divScalar right.z)

/-- The point loop of the pair form of `check_homography_matrix` (lines 1802-1820): the
lists `(left_ip, right_ip)`, as a list of pairs.  The loop runs over the right points and
reads the left point of the same index; reading past the end of a shorter left list is
undefined in C++, and the model stops there. -/
def transformedPoints (left_matrix right_matrix : Matrix3) :
    List Vector3 → List Vector3 → List (Vector3 × Vector3)
  | l :: ls, r :: rs =>
      normalizePair (left_matrix.mulVec ⟨l.x, l.y, 1⟩) (right_matrix.mulVec ⟨r.x, r.y, 1⟩)
        :: transformedPoints left_matrix right_matrix ls rs
  | _, _ => []

/-- The pair form of `check_homography_matrix` (lines 1762-1834).  The box `bbox` only
feeds the debug output. -/
def check_homography_matrix (left_matrix right_matrix : Matrix3)
    (left_points right_points : List Vector3) (minAvgDeltaY : ℚ) (_bbox : BBox2i) : Bool :=
  let det := |det2 left_matrix|
  if det ≤ 1 / 10 ∨ det ≥ 10 then false
  else
    let det := |det2 right_matrix|
    if det ≤ 1 / 10 ∨ det ≥ 10 then false
    else
      let pts := transformedPoints left_matrix right_matrix left_points right_points
      let left_ip := pts.map Prod.fst
      let right_ip := pts.map Prod.snd
      let avgDeltaY := calcAverageDeltaY left_ip right_ip
      if avgDeltaY = -1 ∨ avgDeltaY ≥ minAvgDeltaY then false else true

/-- The point loop of the single-matrix form (lines 1867-1885): the left point is taken
as it is, the right point goes through `H`.  As in the pair form, the model stops at the
end of the shorter list. -/
def transformedPoints_single (H : Matrix3) :
    List Vector3 → List Vector3 → List (Vector3 × Vector3)
  | l :: ls, r :: rs =>
      normalizePair ⟨l.x, l.y, 1⟩ (H.mulVec ⟨r.x, r.y, 1⟩)
        :: transformedPoints_single H ls rs
  | _, _ => []

/-- The single-matrix form of `check_homography_matrix` (lines 1836-1899).  The inlier
`indices` and `bbox` only feed the debug output. -/
def check_homography_matrix_single (H : Matrix3)
    (left_points right_points : List Vector3) (_indices : List Nat) (minAvgDeltaY : ℚ)
    (_bbox : BBox2i) : Bool :=
  let det := |det2 H|
  if det ≤ 1 / 10 ∨ det ≥ 10 then false
  else
    let pts := transformedPoints_single H left_points right_points
    let left_ip := pts.map Prod.fst
    let right_ip := pts.map Prod.snd
    let avgDeltaY := calcAverageDeltaY left_ip right_ip
    if avgDeltaY = -1 ∨ avgDeltaY ≥ minAvgDeltaY then false else true

/-! ## `calcSearchRange` -/

/-- The conversion of a `double` to `int`: truncation toward zero. -/
def truncToInt (q : ℚ) : Int := if 0 ≤ q then ⌊q⌋ else ⌈q⌉

/-- The first loop of `calcSearchRange` (lines 1931-1939): the transformed points
`(trans_left_points, trans_right_points)`, as a list of pairs.  The loop runs over the left
interest points and reads the right one of the same index; reading past the end of a
shorter right list is undefined in C++, and the model stops there. -/
def transPoints (left_matrix right_matrix : Matrix3) :
    List InterestPoint → List InterestPoint → List (Vector3 × Vector3)
  | l :: ls, r :: rs =>
      normalizePair (left_matrix.mulVec ⟨l.x, l.y, 1⟩) (right_matrix.mulVec ⟨r.x, r.y, 1⟩)
        :: transPoints left_matrix right_matrix ls rs
  | _, _ => []

/-- The second loop of `calcSearchRange` (lines 1941-1944): the `int` lists `diffX` and
`diffY` (right minus left), as a list of pairs `(diffX[i], diffY[i])`. -/
def diffList (pts : List (Vector3 × Vector3)) : List (Int × Int) :=
  pts.map fun p => (truncToInt (p.2.x - p.1.x), truncToInt (p.2.y - p.1.y))

/-- The running extrema `minDiffX, minDiffY, maxDiffX, maxDiffY` of `calcSearchRange`. -/
structure DiffBounds where
  minDiffX : Int
  minDiffY : Int
  maxDiffX : Int
  maxDiffY : Int
deriving DecidableEq

/-- One pass of the body of the third loop of `calcSearchRange` (lines 1946-1953). -/
def DiffBounds.update (b : DiffBounds) (d : Int × Int) : DiffBounds :=
  let minDiffY := if d.2 < b.minDiffY then d.2 else b.minDiffY
  let minDiffX := if d.1 < b.minDiffX then d.1 else b.minDiffX
  let maxDiffY := if d.2 > b.maxDiffY then d.2 else b.maxDiffY
  let maxDiffX := if d.1 > b.maxDiffX then d.1 else b.maxDiffX
  ⟨minDiffX, minDiffY, maxDiffX, maxDiffY⟩

/-- The function `calcSearchRange` (lines 1925-1956). -/
def calcSearchRange (left_ip right_ip : List InterestPoint)
    (left_matrix right_matrix : Matrix3) (multi : ℚ) : BBox2f :=
  let diffs := diffList (transPoints left_matrix right_matrix left_ip right_ip)
  let b := diffs.foldl DiffBounds.update ⟨0, 0, 0, 0⟩
  BBox2f.ofMinSize (multi * b.minDiffX) (multi * b.minDiffY)
    (multi * b.maxDiffX - multi * b.minDiffX) (multi * b.maxDiffY - multi * b.minDiffY)

/-! ## `piecewiseAlignment_affineepipolar` -/

/-- What `piecewiseAlignment_affineepipolar` leaves behind: its return value `range` and
the final values of the reference parameters `left_size`, `left_matrix`, `right_matrix`. -/
structure AlignResult where
  range : BBox2f
  left_size : Vector2i
  left_matrix : Matrix3
  right_matrix : Matrix3
deriving DecidableEq

/-- The type of `affine_epipolar_rectification1(left_size, right_size, ip1, ip2, ...)`,
whose numerical helpers (`linear_affine_fundamental_matrix`, `solve_y_scaling`,
`solve_x_shear`) are library code: `none` when it throws, otherwise the returned render
size with the left and the right matrix it wrote. -/
abbrev AffineEpipolarFit :=
  Vector2i → Vector2i → List InterestPoint → List InterestPoint →
    Option (Vector2i × Matrix3 × Matrix3)

/-- The function `piecewiseAlignment_affineepipolar` (lines 1323-1393).  The lists
`matchedRANSAC_ip1`, `matchedRANSAC_ip2` are what the guarded call of
`homography_ip_matching1` on the tile crops (lines 1354-1358) left in its two output
lists; the fitting routine is the parameter `affine_epipolar_rectification1`. -/
def piecewiseAlignment_affineepipolar
    (affine_epipolar_rectification1 : AffineEpipolarFit)
    (matchedRANSAC_ip1 matchedRANSAC_ip2 : List InterestPoint)
    (bbox : BBox2i) (left_size right_size : Vector2i)
    (_left_matrix _right_matrix : Matrix3) (local_search_range : BBox2f) : AlignResult :=
  let threshPiecewiseAlignment : ℚ := 3
  let threshSearchRange : ℚ := 2
  let avgDeltaY := calcAverageDeltaY_ip matchedRANSAC_ip1 matchedRANSAC_ip2
  if avgDeltaY ≠ -1 ∨ avgDeltaY ≥ threshPiecewiseAlignment then
    let ransac_ip1 := iplist_to_vectorlist matchedRANSAC_ip1
    let ransac_ip2 := iplist_to_vectorlist matchedRANSAC_ip2
    match affine_epipolar_rectification1 left_size right_size
        matchedRANSAC_ip1 matchedRANSAC_ip2 with
    | none => ⟨local_search_range, left_size, identity_matrix, identity_matrix⟩
    | some (new_left_size, left_matrix, right_matrix) =>
      if !check_homography_matrix left_matrix right_matrix ransac_ip1 ransac_ip2
          avgDeltaY bbox then
        ⟨local_search_range, new_left_size, identity_matrix, identity_matrix⟩
      else
        ⟨calcSearchRange matchedRANSAC_ip1 matchedRANSAC_ip2 left_matrix right_matrix
            threshSearchRange,
          new_left_size, left_matrix, right_matrix⟩
  else
    ⟨local_search_range, left_size, identity_matrix, identity_matrix⟩

/-! ## `SeededCorrelatorView::prerasterize`: seed-mode search range -/

/-- The exceptions of `vw` raised by the modelled code. -/
inductive VwException where
  | ArgumentErr (msg : String)
deriving DecidableEq

/-- The sanity check of `prerasterize` on the spread field (lines 910-917), for a spread
field of `spread_cols x spread_rows` pixels and a seed disparity of
`sub_cols x sub_rows` pixels.  It returns `has_sub_disp_spread` or throws. -/
def prerasterize_spread_check (spread_cols spread_rows sub_cols sub_rows : Int) :
    Except VwException Bool :=
  let has_sub_disp_spread := decide (spread_cols ≠ 0 ∧ spread_rows ≠ 0)
  if has_sub_disp_spread = true ∧ spread_cols ≠ sub_cols ∧ spread_rows ≠ sub_rows then
    throw (.ArgumentErr "stereo_corr: D_sub and D_sub_spread must have equal sizes.\n")
  else
    pure has_sub_disp_spread

/-- The library function `grow_bbox_to_int`: the integer box with `floor(min)` as its
minimum and `floor(max) + 1` as its maximum, stored back into a `BBox2f`. -/
def grow_bbox_to_int (b : BBox2f) : BBox2f :=
  ⟨⟨(⌊b.min.x⌋ : Int), (⌊b.min.y⌋ : Int)⟩, ⟨(⌊b.max.x⌋ + 1 : Int), (⌊b.max.y⌋ + 1 : Int)⟩⟩

/-- The method `BBox::expand(offset)` on a `BBox2f`. -/
def BBox2f.expand (b : BBox2f) (offset : ℚ) : BBox2f :=
  ⟨⟨b.min.x - offset, b.min.y - offset⟩, ⟨b.max.x + offset, b.max.y + offset⟩⟩

/-- The steps of `prerasterize` that bring the seed-resolution range to full resolution
(lines 998-1006): grow to integers, expand by 1, then `floor` of the scaled minimum and
`ceil` of the scaled maximum, for the factor `m_upscale_factor`. -/
def prerasterize_scale_range (local_search_range : BBox2f) (m_upscale_factor : Vector2) :
    BBox2f :=
  let r := (grow_bbox_to_int local_search_range).expand 1
  ⟨⟨(⌊r.min.x * m_upscale_factor.x⌋ : Int), (⌊r.min.y * m_upscale_factor.y⌋ : Int)⟩,
   ⟨(⌈r.max.x * m_upscale_factor.x⌉ : Int), (⌈r.max.y * m_upscale_factor.y⌉ : Int)⟩⟩

/-! ## Statements of the specification, in its own words -/

/-- The mean, over all correspondences, of `|y(L*p_left) - y(R*p_right)|` taken on the
homogeneous-normalised transformed points, as the specification words the residual. -/
def meanAbsDeltaY (L R : Matrix3) (left_points right_points : List Vector3) : ℚ :=
  (List.zipWith
      (fun l r =>
        |(L.mulVec ⟨l.x, l.y, 1⟩).y / (L.mulVec ⟨l.x, l.y, 1⟩).z
          - (R.mulVec ⟨r.x, r.y, 1⟩).y / (R.mulVec ⟨r.x, r.y, 1⟩).z|)
      left_points right_points).sum / left_points.length

/-- The offsets `R*p_right - L*p_left` of the transformed, homogeneous-normalised
correspondences, as the specification words them. -/
def specOffsets (L R : Matrix3) (left_ip right_ip : List InterestPoint) : List Vector2 :=
  List.zipWith
    (fun l r =>
      (⟨(R.mulVec ⟨r.x, r.y, 1⟩).x / (R.mulVec ⟨r.x, r.y, 1⟩).z
          - (L.mulVec ⟨l.x, l.y, 1⟩).x / (L.mulVec ⟨l.x, l.y, 1⟩).z,
        (R.mulVec ⟨r.x, r.y, 1⟩).y / (R.mulVec ⟨r.x, r.y, 1⟩).z
          - (L.mulVec ⟨l.x, l.y, 1⟩).y / (L.mulVec ⟨l.x, l.y, 1⟩).z⟩ : Vector2))
    left_ip right_ip

/-- The axis-aligned bounding box of a non-empty list of offsets with both corners
multiplied by `multi`, as the specification words the success-path search range. -/
def specSearchRange (multi : ℚ) : List Vector2 → Option BBox2f
  | [] => none
  | o :: os =>
    some ⟨⟨multi * (os.map Vector2.x).foldl min o.x, multi * (os.map Vector2.y).foldl min o.y⟩,
          ⟨multi * (os.map Vector2.x).foldl max o.x, multi * (os.map Vector2.y).foldl max o.y⟩⟩

/-! ## Concrete tiles used in the evaluations below -/

/-- The reflection `diag(1, -1, 1)`: linear-part determinant `-1`. -/
def reflectY : Matrix3 := ⟨1, 0, 0, 0, -1, 0, 0, 0, 1⟩

/-- The translation by `(0, -1)`. -/
def shiftUp : Matrix3 := ⟨1, 0, 0, 0, 1, -1, 0, 0, 1⟩

/-- The scaling `diag(1, 2, 1)`. -/
def stretchY : Matrix3 := ⟨1, 0, 0, 0, 2, 0, 0, 0, 1⟩

/-- The scaling `diag(4, 4, 1)`: linear-part determinant `16`. -/
def scale4 : Matrix3 := ⟨4, 0, 0, 0, 4, 0, 0, 0, 1⟩

/-- The 64x64 tile `[0,64) x [0,64)` at the image origin. -/
def originTile : BBox2i := ⟨⟨0, 0⟩, ⟨64, 64⟩⟩

/-- The 64x64 tile `[64,128) x [64,128)`, in the interior of a 256x256 image. -/
def interiorTile : BBox2i := ⟨⟨64, 64⟩, ⟨128, 128⟩⟩

/-- Four matches at the corners of a 10x10 square, the right points one row lower. -/
def shiftedLeft : List InterestPoint := [⟨0, 0⟩, ⟨10, 0⟩, ⟨0, 10⟩, ⟨10, 10⟩]

/-- The right points of `shiftedLeft`. -/
def shiftedRight : List InterestPoint := [⟨0, 1⟩, ⟨10, 1⟩, ⟨0, 11⟩, ⟨10, 11⟩]

/-- A fitting routine that returns the render size `(64, 63)` with the identity on the
left and `shiftUp` on the right. -/
def fitShiftUp : AffineEpipolarFit := fun _ _ _ _ => some (⟨64, 63⟩, identity_matrix, shiftUp)

/-- A fitting routine that returns the render size `(256, 256)` with `scale4` on both
sides. -/
def fitScale4 : AffineEpipolarFit := fun _ _ _ _ => some (⟨256, 256⟩, scale4, scale4)

/-- The right points of `shiftedLeft` moved by `(5/2, 1)`. -/
def shiftedRightHalf : List InterestPoint := [⟨5 / 2, 1⟩, ⟨25 / 2, 1⟩, ⟨5 / 2, 11⟩, ⟨25 / 2, 11⟩]

/-- A fitting routine that throws. -/
def fitThrows : AffineEpipolarFit := fun _ _ _ _ => none

/-- The unit search range `[-1, 1] x [-1, 1]`. -/
def unitRange : BBox2f := ⟨⟨-1, -1⟩, ⟨1, 1⟩⟩

/-! ## Search-range limit and seed box of `prerasterize` -/

/-- The method `BBox::contains(point)`: `min` is inclusive and `max` exclusive. -/
def BBox2i.contains (b : BBox2i) (p : Vector2i) : Prop :=
  b.min.x ≤ p.x ∧ p.x < b.max.x ∧ b.min.y ≤ p.y ∧ p.y < b.max.y

/-- The method `BBox::contains(point)` on a `BBox2f`. -/
def BBox2f.contains (b : BBox2f) (p : Vector2) : Prop :=
  b.min.x ≤ p.x ∧ p.x < b.max.x ∧ b.min.y ≤ p.y ∧ p.y < b.max.y

/-- The conversion of a `BBox2i` to a `BBox2f`. -/
def BBox2i.toBBox2f (b : BBox2i) : BBox2f := ⟨⟨b.min.x, b.min.y⟩, ⟨b.max.x, b.max.y⟩⟩

/-- The method `BBox::crop(bbox)` of a `BBox2f` by a `BBox2i`. -/
def BBox2f.crop (b : BBox2f) (c : BBox2i) : BBox2f :=
  ⟨⟨if b.min.x < c.min.x then c.min.x else b.min.x,
    if b.min.y < c.min.y then c.min.y else b.min.y⟩,
   ⟨if b.max.x > c.max.x then c.max.x else b.max.x,
    if b.max.y > c.max.y then c.max.y else b.max.y⟩⟩

/-- The test `limit.min() != Vector2i() || limit.max() != Vector2i()` (lines 735-736,
1009-1010): the user set a search-range limit. -/
def limitIsSet (search_range_limit : BBox2i) : Prop :=
  search_range_limit.min ≠ ⟨0, 0⟩ ∨ search_range_limit.max ≠ ⟨0, 0⟩

instance (l : BBox2i) : Decidable (limitIsSet l) := by
  unfold limitIsSet
  infer_instance

/-- The step of `prerasterize` that applies the user's limit to the scaled local search
range (lines 1008-1013). -/
def prerasterize_apply_limit (local_search_range : BBox2f) (search_range_limit : BBox2i) :
    BBox2f :=
  if limitIsSet search_range_limit then local_search_range.crop search_range_limit
  else local_search_range

/-- The members `m_upscale_factor` set by the constructor of `SeededCorrelatorView`
(lines 836-837) for a left image of `cols x rows` pixels and a seed disparity of
`sub_cols x sub_rows` pixels. -/
def m_upscale_factor (cols rows sub_cols sub_rows : Int) : Vector2 :=
  ⟨(cols : ℚ) / sub_cols, (rows : ℚ) / sub_rows⟩

/-- The box `seed_bbox` of `prerasterize` (lines 892-895): the tile corners divided by the
upscale factor and converted to `int`, expanded by 1 and cropped to `m_seed_bbox`, the
bounding box of the seed disparity. -/
def seed_bbox (bbox : BBox2i) (upscale : Vector2) (sub_cols sub_rows : Int) : BBox2i :=
  ((BBox2i.mk
      ⟨truncToInt ((bbox.min.x : ℚ) / upscale.x), truncToInt ((bbox.min.y : ℚ) / upscale.y)⟩
      ⟨truncToInt ((bbox.max.x : ℚ) / upscale.x), truncToInt ((bbox.max.y : ℚ) / upscale.y)⟩
    ).expand 1).crop (bounding_box sub_cols sub_rows)

/-! ## `histogram` and `approximate_search_range` -/

/-- The C function `round` followed by the cast to `int`: nearest integer, halves away
from zero. -/
def cRound (q : ℚ) : Int := if 0 ≤ q then ⌊q + 1 / 2⌋ else ⌈q - 1 / 2⌉

/-- The bin that `histogram` increments for the value `val` (lines 557-564). -/
def histogram_bin (num_bins : Int) (min_val max_val val : ℚ) : Int :=
  let range := max_val - min_val
  let bin := cRound ((num_bins - 1) * ((val - min_val) / range))
  let bin := if bin < 0 then 0 else bin
  if bin > num_bins - 1 then num_bins - 1 else bin

/-- The value `bin_centers[i]` set by `histogram` (lines 549-553). -/
def histogram_center (num_bins : Int) (min_val max_val : ℚ) (i : Nat) : ℚ :=
  let range := max_val - min_val
  let bin_width := range / num_bins
  min_val + i * bin_width + bin_width / 2

/-- The statement `++(hist[bin])` on a list of counts. -/
def incrementAt : List ℚ → Nat → List ℚ
  | [], _ => []
  | h :: hs, 0 => (h + 1) :: hs
  | h :: hs, n + 1 => h :: incrementAt hs n

/-- The function `histogram` (lines 540-569): the pair `(hist, bin_centers)` it writes, or
the `ArgumentErr` of its assertion. -/
def histogram (values : List ℚ) (num_bins : Int) (min_val max_val : ℚ) :
    Except VwException (List ℚ × List ℚ) :=
  if ¬ (num_bins > 0) then
    throw (.ArgumentErr "histogram: number of input bins must be positive")
  else
    let bin_centers :=
      (List.range num_bins.toNat).map (histogram_center num_bins min_val max_val)
    let hist :=
      values.foldl
        (fun hist val => incrementAt hist (histogram_bin num_bins min_val max_val val).toNat)
        (List.replicate num_bins.toNat 0)
    pure (hist, bin_centers)

/-- The value of `std::numeric_limits<double>::max()`. -/
def DBL_MAX : ℚ := (2 ^ 53 - 1) * 2 ^ 971

/-- The value of `std::numeric_limits<double>::min()`: the smallest positive normalised
`double`, `2^-1022`. -/
def DBL_MIN : ℚ := 1 / 2 ^ 1022

/-- The offsets and their running limits in `approximate_search_range` (lines 620-623). -/
structure OffsetStats where
  dx : List ℚ
  dy : List ℚ
  min_dx : ℚ
  min_dy : ℚ
  max_dx : ℚ
  max_dy : ℚ
deriving DecidableEq

/-- The state before the loop (lines 620-623). -/
def OffsetStats.init : OffsetStats := ⟨[], [], DBL_MAX, DBL_MAX, DBL_MIN, DBL_MIN⟩

/-- One pass of the loop body (lines 625-633) on the pair `(ip1, ip2)`. -/
def OffsetStats.step (i_scale : ℚ) (s : OffsetStats) (ip1 ip2 : InterestPoint) :
    OffsetStats :=
  let diffX := i_scale * (ip2.x - ip1.x)
  let diffY := i_scale * (ip2.y - ip1.y)
  ⟨s.dx ++ [diffX], s.dy ++ [diffY],
   if diffX < s.min_dx then diffX else s.min_dx,
   if diffY < s.min_dy then diffY else s.min_dy,
   if diffX > s.max_dx then diffX else s.max_dx,
   if diffY > s.max_dy then diffY else s.max_dy⟩

/-- The loop of `approximate_search_range` over the filtered matches (lines 624-634),
from the state `s`.  It runs over `matched_ip1` and reads `matched_ip2` at the same index;
the model stops at the end of the shorter list. -/
def offsetStats (i_scale : ℚ) : OffsetStats → List InterestPoint → List InterestPoint →
    OffsetStats
  | s, p1 :: l1, p2 :: l2 => offsetStats i_scale (s.step i_scale p1 p2) l1 l2
  | s, _, _ => s

/-- The inflation of the tight window in `approximate_search_range` (lines 658-665), with
`search_scale = 2.0`: the new `(search_min, search_max)`. -/
def inflate_search_window (search_min search_max : Vector2) : Vector2 × Vector2 :=
  let search_scale : ℚ := 2
  let search_center : Vector2 :=
    ⟨(search_max.x + search_min.x) / 2, (search_max.y + search_min.y) / 2⟩
  let d_min : Vector2 := ⟨search_min.x - search_center.x, search_min.y - search_center.y⟩
  let d_max : Vector2 := ⟨search_max.x - search_center.x, search_max.y - search_center.y⟩
  (⟨d_min.x * search_scale + search_center.x, d_min.y * search_scale + search_center.y⟩,
   ⟨d_max.x * search_scale + search_center.x, d_max.y * search_scale + search_center.y⟩)

/-- What `filter_ip_by_lonlat_and_elevation` hands back to `approximate_search_range`
(lines 604-610): its return value `num_left`, the number of correspondences left, and the
two output lists. -/
structure FilteredMatches where
  num_left : Nat
  matched_ip1 : List InterestPoint
  matched_ip2 : List InterestPoint

/-- The function `approximate_search_range` (lines 574-685).  The inputs are whether the
match file exists, the scale `ip_scale` returned by `adjust_ip_for_align_matrix`, the
result of the elevation/lon-lat prefilter, and the library routine
`get_histogram_percentile`.  The message of the first error is shortened to its fixed
part; reading `centers[bin]` past the end is undefined in C++ and yields 0 here. -/
def approximate_search_range (get_histogram_percentile : List ℚ → ℚ → Nat)
    (match_file_exists : Bool) (ip_scale : ℚ) (filtered : FilteredMatches) :
    Except VwException BBox2i :=
  if ¬ match_file_exists then throw (.ArgumentErr "Missing IP file: ")
  else
    let i_scale : ℚ := 1 / ip_scale
    if filtered.num_left = 0 then
      throw (.ArgumentErr "No IPs left after elevation filtering!")
    else
      let st := offsetStats i_scale OffsetStats.init filtered.matched_ip1 filtered.matched_ip2
      let NUM_BINS : Int := 2000
      match histogram st.dx NUM_BINS st.min_dx st.max_dx with
      | .error e => throw e
      | .ok (hist_x, centers_x) =>
        match histogram st.dy NUM_BINS st.min_dy st.max_dy with
        | .error e => throw e
        | .ok (hist_y, centers_y) =>
          let MAX_PERCENTILE : ℚ := 95 / 100
          let MIN_PERCENTILE : ℚ := 5 / 100
          let min_bin_x := get_histogram_percentile hist_x MIN_PERCENTILE
          let min_bin_y := get_histogram_percentile hist_y MIN_PERCENTILE
          let max_bin_x := get_histogram_percentile hist_x MAX_PERCENTILE
          let max_bin_y := get_histogram_percentile hist_y MAX_PERCENTILE
          let search_min : Vector2 := ⟨centers_x.getD min_bin_x 0, centers_y.getD min_bin_y 0⟩
          let search_max : Vector2 := ⟨centers_x.getD max_bin_x 0, centers_y.getD max_bin_y 0⟩
          let w := inflate_search_window search_min search_max
          pure ⟨⟨truncToInt w.1.x, truncToInt w.1.y⟩, ⟨truncToInt w.2.x, truncToInt w.2.y⟩⟩

/-! ## `lowres_correlation` and `stereo_correlation` -/

/-- The fields of `stereo_settings()` read by the modelled code.  The field
`search_defined` is the value of `stereo_settings().is_search_defined()`. -/
structure StereoSettings where
  seed_mode : Int
  search_defined : Bool
  search_range : BBox2i
  search_range_limit : BBox2i
  left_image_crop_win : BBox2i
  right_image_crop_win : BBox2i
  use_local_homography : Bool
  skip_low_res_disparity_comp : Bool
  compute_low_res_disparity_only : Bool
  cost_mode : Int
  stereo_algorithm : Int
  corr_tile_size_ovr : Int

/-- The operator `bbox += v`: both corners move by `v`. -/
def BBox2i.add (b : BBox2i) (v : Vector2i) : BBox2i :=
  ⟨⟨b.min.x + v.x, b.min.y + v.y⟩, ⟨b.max.x + v.x, b.max.y + v.y⟩⟩

/-- The operator `bbox -= v`. -/
def BBox2i.sub (b : BBox2i) (v : Vector2i) : BBox2i :=
  ⟨⟨b.min.x - v.x, b.min.y - v.y⟩, ⟨b.max.x - v.x, b.max.y - v.y⟩⟩

/-- The flag `crop_left` (lines 698, 752). -/
def crop_left (s : StereoSettings) : Bool :=
  decide (s.left_image_crop_win ≠ BBox2i.ofMinSize 0 0 0 0)

/-- The flag `crop_right` (lines 699, 753). -/
def crop_right (s : StereoSettings) : Bool :=
  decide (s.right_image_crop_win ≠ BBox2i.ofMinSize 0 0 0 0)

/-- The first stage of `lowres_correlation` (lines 693-732): the search range derived
before the limit is applied.  The parameter `detected` is the outcome of `compute_ip`
followed by `approximate_search_range` (line 725-728), which read files. -/
def lowres_derived_search_range (s : StereoSettings) (detected : Except VwException BBox2i) :
    Except VwException BBox2i :=
  if s.search_defined then
    let r := s.search_range
    let r := if crop_left s ∧ ¬ crop_right s then r.add s.left_image_crop_win.min else r
    let r := if ¬ crop_left s ∧ crop_right s then r.sub s.right_image_crop_win.min else r
    pure r
  else if s.seed_mode = 2 then pure s.search_range
  else if s.seed_mode = 3 then pure s.search_range
  else detected

/-- The step that applies the user's limit to the global search range (lines 734-739). -/
def lowres_apply_limit (search_range search_range_limit : BBox2i) : BBox2i :=
  if limitIsSet search_range_limit then search_range.crop search_range_limit
  else search_range

/-- The seed stage of `lowres_correlation` (lines 746-774): whether
`produce_lowres_disparity` is called.  The flag `dsub_opens` tells that opening the cached
`D_sub.tif` threw neither `IOErr` nor `ArgumentErr`. -/
def lowres_rebuild (s : StereoSettings) (dsub_opens : Bool) : Bool :=
  if s.seed_mode > 0 then
    let rebuild := crop_left s || crop_right s
    let rebuild := if dsub_opens then rebuild else true
    rebuild
  else
    false

/-- The enumeration `stereo::CostFunctionType`. -/
inductive CostFunctionType where
  | ABSOLUTE_DIFFERENCE
  | SQUARED_DIFFERENCE
  | CROSS_CORRELATION
  | CENSUS_TRANSFORM
  | TERNARY_CENSUS_TRANSFORM
deriving DecidableEq

/-- The function `get_cost_mode_value` (lines 116-126); the message is shortened to its
fixed part. -/
def get_cost_mode_value (cost_mode : Int) : Except VwException CostFunctionType :=
  if cost_mode = 0 then pure .ABSOLUTE_DIFFERENCE
  else if cost_mode = 1 then pure .SQUARED_DIFFERENCE
  else if cost_mode = 2 then pure .CROSS_CORRELATION
  else if cost_mode = 3 then pure .CENSUS_TRANSFORM
  else if cost_mode = 4 then pure .TERNARY_CENSUS_TRANSFORM
  else throw (.ArgumentErr "Unknown value for cost-mode.\n")

/-- The enumerator `vw::stereo::CORRELATION_WINDOW`, the first of the library's
`CorrelationAlgorithm` values. -/
def CORRELATION_WINDOW : Int := 0

/-- The error raised by the tile-size check of `stereo_correlation` (lines 1220-1226); the
message is shortened to its first line. -/
def sgmTileSizeErr : VwException :=
  .ArgumentErr "Error: SGM processing is not permitted with a tile size smaller than the image!\n"

/-- How a completed call of `stereo_correlation` ended. -/
inductive StereoOutcome where
  | low_res_only
  | disparity_written
deriving DecidableEq

/-- The function `stereo_correlation` (lines 1128-1272).  The parameters stand for the
steps that read or write files: `lowres` is the outcome of the call of
`lowres_correlation` (line 1136), `load_inputs` of reading the search range from `D_sub`
and opening the images, the seed, the spread and the local homographies (lines
1143-1195), `setup_view` of the calibration pass and the construction of the
correlator view (lines 1198-1211), whose cropped extent is `image_size`, and
`write_raster` of rasterising and writing the disparity and the homography table (lines
1247-1268). -/
def stereo_correlation (s : StereoSettings) (lowres load_inputs setup_view : Except VwException Unit)
    (image_size : Vector2i) (write_raster : Except VwException Unit) :
    Except VwException StereoOutcome := do
  if !s.skip_low_res_disparity_comp || decide (s.seed_mode = 0) then
    lowres
  if s.compute_low_res_disparity_only then
    return .low_res_only
  load_inputs
  let _cost_mode ← get_cost_mode_value s.cost_mode
  setup_view
  let using_sgm := decide (s.stereo_algorithm > CORRELATION_WINDOW)
  if using_sgm then
    let max_dim := max image_size.x image_size.y
    if s.corr_tile_size_ovr < max_dim then
      throw sgmTileSizeErr
  write_raster
  return .disparity_written

/-! ## Round trip of the inverse-warp step, in the words of the specification -/

/-- The position predicted for the tile pixel `(i, j)` by an emitted pixel: the pixel
coordinate plus the emitted disparity. -/
def predictedPosition (i j : Int) (emitted : PixelMaskVector2f) : Vector2 :=
  ⟨i + emitted.child.x, j + emitted.child.y⟩

/-- Two positions are within one pixel of each other on both axes. -/
def withinOnePixel (p q : Vector2) : Prop := |p.x - q.x| ≤ 1 ∧ |p.y - q.y| ≤ 1

/-! ## Concrete settings used in the evaluations below -/

/-- Settings of a window-correlation run with seed mode 1, the user search range
`[-20, 20) x [-5, 5)`, the limit `[-10, 10) x [-2, 2)`, no crop windows and tile size
1024. -/
def windowSettings : StereoSettings where
  seed_mode := 1
  search_defined := true
  search_range := ⟨⟨-20, -5⟩, ⟨20, 5⟩⟩
  search_range_limit := ⟨⟨-10, -2⟩, ⟨10, 2⟩⟩
  left_image_crop_win := BBox2i.ofMinSize 0 0 0 0
  right_image_crop_win := BBox2i.ofMinSize 0 0 0 0
  use_local_homography := false
  skip_low_res_disparity_comp := false
  compute_low_res_disparity_only := false
  cost_mode := 2
  stereo_algorithm := 0
  corr_tile_size_ovr := 1024

/-- Settings of a window-correlation run without seed (seed mode 0) and with the unknown
cost mode 9. -/
def unknownCostSettings : StereoSettings :=
  { windowSettings with seed_mode := 0, cost_mode := 9 }

/-- Settings of a semi-global run (`stereo_algorithm = 1`) with tile size 256 that stops
after the low-resolution disparity. -/
def sgmLowResOnlySettings : StereoSettings :=
  { windowSettings with
    stereo_algorithm := 1, corr_tile_size_ovr := 256, compute_low_res_disparity_only := true }

/-- Settings of a semi-global run (`stereo_algorithm = 1`) with tile size 256. -/
def sgmSettings : StereoSettings :=
  { windowSettings with stereo_algorithm := 1, corr_tile_size_ovr := 256 }

/-- Settings with a left crop window. -/
def croppedSettings : StereoSettings :=
  { windowSettings with left_image_crop_win := BBox2i.ofMinSize 100 100 512 512 }

/-! ## `homography_ip_matching1` -/

/-- What `homography_ip_matching1` leaves behind: its return value and the final contents
of the output lists `final_ip1`, `final_ip2`. -/
structure IpMatching where
  success : Bool
  final_ip1 : List InterestPoint
  final_ip2 : List InterestPoint
deriving DecidableEq

/-- The function `homography_ip_matching1` (lines 1612-1677).  The lists `matched_ip1`,
`matched_ip2` are what `detect_match_ip` found; `ransac` stands for the guarded block
(lines 1636-1656): `none` when it raises `RANSACErr`, otherwise the inlier `indices`.  The
lists `final_ip1`, `final_ip2` are the output lists as the caller passed them.  Reading
`matched_ip[index]` past the end is undefined in C++ and yields the point `(0, 0)` here;
the writing of the match file is not modelled. -/
def homography_ip_matching1 (matched_ip1 matched_ip2 : List InterestPoint)
    (ransac : List Vector3 → List Vector3 → Option (List Nat))
    (final_ip1 final_ip2 : List InterestPoint) : IpMatching :=
  if matched_ip1.length = 0 ∨ matched_ip2.length = 0 then ⟨false, final_ip1, final_ip2⟩
  else
    let ransac_ip1 := iplist_to_vectorlist matched_ip1
    let ransac_ip2 := iplist_to_vectorlist matched_ip2
    match ransac ransac_ip2 ransac_ip1 with
    | none => ⟨false, final_ip1, final_ip2⟩
    | some indices =>
      let out :=
        indices.foldl
          (fun (acc : List InterestPoint × List InterestPoint) index =>
            (acc.1 ++ [matched_ip1.getD index ⟨0, 0⟩], acc.2 ++ [matched_ip2.getD index ⟨0, 0⟩]))
          (final_ip1, final_ip2)
      ⟨true, out.1, out.2⟩

/-! ## `adjust_ip_for_align_matrix` -/

/-- One pass of the loop body of `adjust_ip_for_align_matrix` (lines 335-348) on the pair
`(ip_left[i], ip_right[i])`. -/
def adjustPair (align_left_matrix align_right_matrix : Matrix3) (ipl ipr : InterestPoint) :
    InterestPoint × InterestPoint :=
  let l := align_left_matrix.mulVec ⟨ipl.x, ipl.y, 1⟩
  let r := align_right_matrix.mulVec ⟨ipr.x, ipr.y, 1⟩
  if l.z = 0 ∨ r.z = 0 then (ipl, ipr)
  else
    let l := l.divScalar l.z
    let r := r.divScalar r.z
    (⟨l.x, l.y⟩, ⟨r.x, r.y⟩)

/-- The loop of `adjust_ip_for_align_matrix` (lines 334-349): the final lists.  It runs
over `ip_left` and reads `ip_right` at the same index; right points beyond the end of
`ip_left` stay as they are, and reading past the end of a shorter `ip_right` is undefined
in C++ (the model stops there). -/
def adjustLoop (align_left_matrix align_right_matrix : Matrix3) :
    List InterestPoint → List InterestPoint → List InterestPoint × List InterestPoint
  | l :: ls, r :: rs =>
    let p := adjustPair align_left_matrix align_right_matrix l r
    let rest := adjustLoop align_left_matrix align_right_matrix ls rs
    (p.1 :: rest.1, p.2 :: rest.2)
  | ls, rs => (ls, rs)

/-- What `adjust_ip_for_align_matrix` leaves behind: the returned scale and the final
contents of `ip_left`, `ip_right`. -/
structure AdjustedIp where
  scale : ℚ
  ip_left : List InterestPoint
  ip_right : List InterestPoint
deriving DecidableEq

/-- The function `adjust_ip_for_align_matrix` (lines 314-352).  The flags `left_align`,
`right_align` tell whether the files `-align-L.exr`, `-align-R.exr` exist, and
`left_file_matrix`, `right_file_matrix` are the matrices `read_matrix` finds in them. -/
def adjust_ip_for_align_matrix (left_align right_align : Bool)
    (left_file_matrix right_file_matrix : Matrix3) (ip_left ip_right : List InterestPoint)
    (ip_scale : ℚ) : AdjustedIp :=
  if !left_align && !right_align then ⟨ip_scale, ip_left, ip_right⟩
  else
    let align_left_matrix := if left_align then left_file_matrix else identity_matrix
    let align_right_matrix := if right_align then right_file_matrix else identity_matrix
    let out := adjustLoop align_left_matrix align_right_matrix ip_left ip_right
    ⟨1, out.1, out.2⟩

/-! ## The tile size set in `main` -/

/-- The value that a 32-bit `int` holds after an arithmetic result `z`: `z` reduced modulo
`2^32` into `[-2^31, 2^31)`.  Signed overflow is undefined in C++; the reduction is what
two's-complement hardware computes. -/
def wrapInt32 (z : Int) : Int := (z + 2147483648) % 4294967296 - 2147483648

/-- The tile size `ts` that `main` stores in both components of `opt.raster_tile_size`
(lines 1302-1310), for the configured `corr_tile_size_ovr`, a 32-bit `int`.  The C++
operators `/` and `%` truncate toward zero; the quotient and the quotient plus one fit a
32-bit `int`, the product with 16 is reduced by `wrapInt32`. -/
def main_raster_tile_size (corr_tile_size_ovr : Int) : Vector2i :=
  let TILE_MULTIPLE : Int := 16
  let ts := corr_tile_size_ovr
  let ts :=
    if Int.tmod ts TILE_MULTIPLE ≠ 0 then wrapInt32 ((Int.tdiv ts TILE_MULTIPLE + 1) * TILE_MULTIPLE)
    else ts
  ⟨ts, ts⟩

/-! ## `strip_path` -/

/-- The method `std::string::find(pattern)` on character lists: the position of the first
occurrence of `pattern`, or `none` for `npos`. -/
def stringFind (pattern : List Char) : List Char → Option Nat
  | [] => if pattern = [] then some 0 else none
  | c :: cs =>
    if pattern.isPrefixOf (c :: cs) then some 0
    else (stringFind pattern cs).map (· + 1)

/-- The method `std::string::erase(pos, len)` on character lists. -/
def stringErase (str : List Char) (pos len : Nat) : List Char :=
  str.take pos ++ str.drop (pos + len)

/-- The part of a path after its last `/` (the library's `path::filename()` for a path
that does not end in a separator). -/
def pathFilename (path : List Char) : List Char :=
  ((path.reverse.takeWhile (· ≠ '/')).reverse)

/-- The library's `path::stem()`: the filename without its last `.` and what follows; the
names `.` and `..` are left as they are. -/
def pathStem (path : List Char) : List Char :=
  let name := pathFilename path
  if name = ['.'] ∨ name = ['.', '.'] then name
  else if name.contains '.' then
    (name.reverse.dropWhile (· ≠ '.')).reverse.dropLast
  else name

/-- The function `strip_path` (lines 355-369). -/
def strip_path ( out_prefix : String) (filename : String) : String :=
  let ss := out_prefix.data ++ ['-']
  let found := stringFind ss filename.data
  let filename :=
    match found with
    | some pos => stringErase filename.data pos ss.length
    | none => filename.data
  String.mk (pathStem filename)

/-- The result the comment of `strip_path` (lines 357-358) and the specification describe:
the string `out_prefix + "-"` is removed only at the start of the filename, and then the
extension is stripped. -/
def specStripPath ( out_prefix : String) (filename : String) : String :=
  let ss := out_prefix.data ++ ['-']
  if ss.isPrefixOf filename.data then String.mk (pathStem (filename.data.drop ss.length))
  else String.mk (pathStem filename.data)

/-! ## Debug output of `check_homography_matrix` -/

/-- The verdict of `check_homography_matrix` together with the lists `l_ip`, `r_ip` it
writes to the debug match file. -/
structure CheckTrace where
  verdict : Bool
  l_ip : List InterestPoint
  r_ip : List InterestPoint
deriving DecidableEq

/-- The debug points pushed by the point loops (lines 1813-1818, 1878-1883) for the
transformed pairs `raw` (left, right) as they are before normalisation, with the offset
`(ox, oy)` subtracted: a pair with a zero homogeneous coordinate is skipped by the
`continue`, the others are pushed normalised. -/
def debugPoints (ox oy : ℚ) (raw : List (Vector3 × Vector3)) :
    List InterestPoint × List InterestPoint :=
  let kept := raw.filter fun p => decide (¬ (p.2.z = 0 ∨ p.1.z = 0))
  (kept.map fun p => ⟨p.1.x / p.1.z - ox, p.1.y / p.1.z - oy⟩,
   kept.map fun p => ⟨p.2.x / p.2.z - ox, p.2.y / p.2.z - oy⟩)

/-- The pair form of `check_homography_matrix` (lines 1762-1834) with its debug lists; the
subtraction of `bbox.min()` is commented out in this form (lines 1813-1816). -/
def check_homography_matrix_trace (left_matrix right_matrix : Matrix3)
    (left_points right_points : List Vector3) (minAvgDeltaY : ℚ) (_bbox : BBox2i) :
    CheckTrace :=
  let det := |det2 left_matrix|
  if det ≤ 1 / 10 ∨ det ≥ 10 then ⟨false, [], []⟩
  else
    let det := |det2 right_matrix|
    if det ≤ 1 / 10 ∨ det ≥ 10 then ⟨false, [], []⟩
    else
      let raw :=
        List.zipWith
          (fun (l r : Vector3) =>
            (left_matrix.mulVec ⟨l.x, l.y, 1⟩, right_matrix.mulVec ⟨r.x, r.y, 1⟩))
          left_points right_points
      let dbg := debugPoints 0 0 raw
      let pts := transformedPoints left_matrix right_matrix left_points right_points
      let avgDeltaY := calcAverageDeltaY (pts.map Prod.fst) (pts.map Prod.snd)
      if avgDeltaY = -1 ∨ avgDeltaY ≥ minAvgDeltaY then ⟨false, dbg.1, dbg.2⟩
      else ⟨true, dbg.1, dbg.2⟩

/-- The single-matrix form of `check_homography_matrix` (lines 1836-1899) with its debug
lists, from which `bbox.min()` is subtracted (lines 1878-1881). -/
def check_homography_matrix_single_trace (H : Matrix3)
    (left_points right_points : List Vector3) (_indices : List Nat) (minAvgDeltaY : ℚ)
    (bbox : BBox2i) : CheckTrace :=
  let det := |det2 H|
  if det ≤ 1 / 10 ∨ det ≥ 10 then ⟨false, [], []⟩
  else
    let raw :=
      List.zipWith
        (fun (l r : Vector3) => ((⟨l.x, l.y, 1⟩ : Vector3), H.mulVec ⟨r.x, r.y, 1⟩))
        left_points right_points
    let dbg := debugPoints bbox.min.x bbox.min.y raw
    let pts := transformedPoints_single H left_points right_points
    let avgDeltaY := calcAverageDeltaY (pts.map Prod.fst) (pts.map Prod.snd)
    if avgDeltaY = -1 ∨ avgDeltaY ≥ minAvgDeltaY then ⟨false, dbg.1, dbg.2⟩
    else ⟨true, dbg.1, dbg.2⟩

/-! ## `SeededCorrelatorView::prerasterize`: the seed-derived search range -/

/-- The library function `stereo::get_disparity_range` on the pixels of a crop: the
componentwise minimum and maximum of the valid offsets, or `BBox2f(0,0,0,0)` when no pixel
is valid. -/
def get_disparity_range (pixels : List PixelMaskVector2f) : BBox2f :=
  match (pixels.filter fun p => p.valid).map fun p => p.child with
  | [] => BBox2f.ofMinSize 0 0 0 0
  | v :: vs =>
    vs.foldl
      (fun (b : BBox2f) (w : Vector2) =>
        ⟨⟨min b.min.x w.x, min b.min.y w.y⟩, ⟨max b.max.x w.x, max b.max.y w.y⟩⟩)
      ⟨v, v⟩

/-- The method `BBox::grow(bbox)`: the smallest box that holds both. -/
def BBox2f.grow (b c : BBox2f) : BBox2f :=
  ⟨⟨Min.min b.min.x c.min.x, Min.min b.min.y c.min.y⟩,
   ⟨Max.max b.max.x c.max.x, Max.max b.max.y c.max.y⟩⟩

/-- What the seed-mode part of `prerasterize` (lines 889-996) hands on: the search range
before integer growth and scaling, and the two alignment matrices. -/
structure TileAlignment where
  local_search_range : BBox2f
  align_left_matrix : Matrix3
  align_right_matrix : Matrix3
deriving DecidableEq

/-- The seed-mode part of `prerasterize` up to the integer growth (lines 889-996), for a
tile whose seed crop has the pixels `disparity_in_box` and whose spread crop has the
pixels `spread_in_box`.  The ranges `transformed_range`, `upper_range`, `lower_range`
are the results of `get_disparity_range(transform_disparities(...))` with the stored
low-resolution homography (lines 905-907, 928-933); the aligner is called on the expanded
tile `newBBox` with the matches `matched_ip1`, `matched_ip2` of the tile crops. -/
def prerasterize_seed_range (use_local_homography : Bool)
    (disparity_in_box spread_in_box : List PixelMaskVector2f)
    (spread_cols spread_rows sub_cols sub_rows : Int)
    (transformed_range upper_range lower_range : BBox2f)
    (affine_epipolar_rectification1 : AffineEpipolarFit)
    (matched_ip1 matched_ip2 : List InterestPoint) (newBBox : BBox2i) :
    Except VwException TileAlignment :=
  let local_search_range :=
    if !use_local_homography then get_disparity_range disparity_in_box
    else transformed_range
  match prerasterize_spread_check spread_cols spread_rows sub_cols sub_rows with
  | .error e => throw e
  | .ok has_sub_disp_spread =>
    let local_search_range :=
      if has_sub_disp_spread then
        if !use_local_homography then
          let spread := get_disparity_range spread_in_box
          (⟨⟨local_search_range.min.x - spread.max.x, local_search_range.min.y - spread.max.y⟩,
            ⟨local_search_range.max.x + spread.max.x,
             local_search_range.max.y + spread.max.y⟩⟩ : BBox2f)
        else upper_range.grow lower_range
      else local_search_range
    if use_local_homography then
      let local_search_range := get_disparity_range disparity_in_box
      let left_size : Vector2i := ⟨newBBox.width, newBBox.height⟩
      let right_size : Vector2i := ⟨newBBox.width, newBBox.height⟩
      let res :=
        piecewiseAlignment_affineepipolar affine_epipolar_rectification1 matched_ip1
          matched_ip2 newBBox left_size right_size identity_matrix identity_matrix
          local_search_range
      pure ⟨res.range, res.left_matrix, res.right_matrix⟩
    else
      pure ⟨local_search_range, identity_matrix, identity_matrix⟩

/-- The mean absolute vertical offset of the raw correspondences, as the specification
words `avgDeltaY`. -/
def rawMeanAbsDeltaY (left_ip right_ip : List InterestPoint) : ℚ :=
  (List.zipWith (fun l r => |l.y - r.y|) left_ip right_ip).sum / left_ip.length

/-- A seed crop with the two valid offsets `(2, 0)` and `(3, 1)` and one invalid pixel. -/
def seedCrop : List PixelMaskVector2f := [⟨⟨2, 0⟩, true⟩, ⟨⟨9, 9⟩, false⟩, ⟨⟨3, 1⟩, true⟩]

/-- A spread crop whose largest valid spread is `(4, 2)`. -/
def spreadCrop : List PixelMaskVector2f := [⟨⟨1, 2⟩, true⟩, ⟨⟨4, 1⟩, true⟩, ⟨⟨0, 0⟩, true⟩]

/-- The single tile `[0,1024) x [0,1024)` of a 1024x1024 image. -/
def wholeImageTile : BBox2i := ⟨⟨0, 0⟩, ⟨1024, 1024⟩⟩

/-- The alignment matrix that `adjust_ip_for_align_matrix` uses on one side: the matrix of
the file when the file exists, the identity otherwise. -/
def specAlignMatrix (file_exists : Bool) (file_matrix : Matrix3) : Matrix3 :=
  if file_exists then file_matrix else identity_matrix

/-! ## `read_search_range_from_dsub` and `lowres_correlation` -/

/-- The function `read_search_range_from_dsub` (lines 144-171): the value of
`stereo_settings().search_range` after the call, for its value `search_range` before the
call.  The parameter `d_sub` holds the pixels of `D_sub.tif` when that file exists (line
160), and `downsample_scale` is the ratio of the sizes of `L_sub.tif` and `lMask.tif`
(lines 156-157).  The range of the valid offsets is converted to a `BBox2i` (truncation),
divided by the scale and rounded outward; the user's limit is not applied here. -/
def read_search_range_from_dsub (s : StereoSettings) (search_range : BBox2i)
    (downsample_scale : Vector2) (d_sub : Option (List PixelMaskVector2f)) : BBox2i :=
  if s.seed_mode = 0 then search_range
  else
    match d_sub with
    | none => search_range
    | some sub_disp =>
      let r := get_disparity_range sub_disp
      let search_range : BBox2i :=
        ⟨⟨truncToInt r.min.x, truncToInt r.min.y⟩, ⟨truncToInt r.max.x, truncToInt r.max.y⟩⟩
      ⟨⟨⌊(search_range.min.x : ℚ) / downsample_scale.x⌋,
        ⌊(search_range.min.y : ℚ) / downsample_scale.y⌋⟩,
       ⟨⌈(search_range.max.x : ℚ) / downsample_scale.x⌉,
        ⌈(search_range.max.y : ℚ) / downsample_scale.y⌉⟩⟩

/-- The effect of `produce_lowres_disparity` (lines 176-310) on
`stereo_settings().search_range`: the function writes `D_sub.tif` as the seed mode asks
and ends with the call of `read_search_range_from_dsub` (line 309).  The parameter `d_sub`
holds the pixels of the `D_sub.tif` that exists at that point. -/
def produce_lowres_disparity (s : StereoSettings) (search_range : BBox2i)
    (downsample_scale : Vector2) (d_sub : Option (List PixelMaskVector2f)) : BBox2i :=
  read_search_range_from_dsub s search_range downsample_scale d_sub

/-- What a completed call of `lowres_correlation` leaves behind: the value
`limited_search_range` of `stereo_settings().search_range` after the limit step (line
741), the value `search_range` of `stereo_settings().search_range` on return, and whether
`produce_lowres_disparity` and `create_local_homographies` were called. -/
structure LowresOutcome where
  limited_search_range : BBox2i
  search_range : BBox2i
  produce_lowres_disparity_called : Bool
  create_local_homographies_called : Bool
deriving DecidableEq

/-- The function `lowres_correlation` (lines 689-788).  The flag `local_hom_reads` tells
that `read_local_homographies` did not throw `IOErr`; `downsample_scale` and `d_sub` are
the inputs of `produce_lowres_disparity`, read only when the seed is rebuilt (line 771).
The call of `create_local_homographies` is recorded, not executed. -/
def lowres_correlation (s : StereoSettings) (detected : Except VwException BBox2i)
    (dsub_opens local_hom_reads : Bool) (downsample_scale : Vector2)
    (d_sub : Option (List PixelMaskVector2f)) : Except VwException LowresOutcome :=
  match lowres_derived_search_range s detected with
  | .error e => throw e
  | .ok derived =>
    let limited := lowres_apply_limit derived s.search_range_limit
    let rebuild := lowres_rebuild s dsub_opens
    let search_range :=
      if rebuild then produce_lowres_disparity s limited downsample_scale d_sub else limited
    let created :=
      if s.seed_mode > 0 ∧ s.use_local_homography = true then !local_hom_reads else false
    pure ⟨limited, search_range, rebuild, created⟩

/-- A seed disparity `D_sub` at half resolution with the two valid offsets `(-6, -1)` and
`(6, 1)`. -/
def halfResSeed : List PixelMaskVector2f := [⟨⟨-6, -1⟩, true⟩, ⟨⟨6, 1⟩, true⟩]

/-! ## Auxiliary lemmas -/

theorem accuDeltaY_eq_sum (acc : ℚ) (l r : List Vector3) :
    accuDeltaY acc l r = acc + (List.zipWith (fun a b => |a.y - b.y|) l r).sum := by
  induction l generalizing acc r with
  | nil => simp [accuDeltaY]
  | cons a l ih =>
    cases r with
    | nil => simp [accuDeltaY]
    | cons b r => simp [accuDeltaY, ih, add_assoc]

theorem accuDeltaY_ip_eq_sum (acc : ℚ) (l r : List InterestPoint) :
    accuDeltaY_ip acc l r = acc + (List.zipWith (fun a b => |a.y - b.y|) l r).sum := by
  induction l generalizing acc r with
  | nil => simp [accuDeltaY_ip]
  | cons a l ih =>
    cases r with
    | nil => simp [accuDeltaY_ip]
    | cons b r => simp [accuDeltaY_ip, ih, add_assoc]

theorem sum_zipWith_nonneg {α : Type} (g : α → α → ℚ) (hg : ∀ a b, 0 ≤ g a b)
    (l r : List α) : 0 ≤ (List.zipWith g l r).sum := by
  induction l generalizing r with
  | nil => simp
  | cons a l ih =>
    cases r with
    | nil => simp
    | cons b r =>
      simp only [List.zipWith_cons_cons, List.sum_cons]
      exact add_nonneg (hg a b) (ih r)

theorem accuDeltaY_nonneg (l r : List Vector3) : 0 ≤ accuDeltaY 0 l r := by
  rw [accuDeltaY_eq_sum, zero_add]
  exact sum_zipWith_nonneg _ (fun a b => abs_nonneg _) l r

theorem accuDeltaY_ip_nonneg (l r : List InterestPoint) : 0 ≤ accuDeltaY_ip 0 l r := by
  rw [accuDeltaY_ip_eq_sum, zero_add]
  exact sum_zipWith_nonneg _ (fun a b => abs_nonneg _) l r

/-- The average is the "not valid" marker `-1` or a non-negative number. -/
theorem calcAverageDeltaY_cases (l r : List Vector3) :
    calcAverageDeltaY l r = -1 ∨ 0 ≤ calcAverageDeltaY l r := by
  unfold calcAverageDeltaY
  split
  · right
    exact div_nonneg (accuDeltaY_nonneg l r) (Nat.cast_nonneg _)
  · left; rfl

theorem calcAverageDeltaY_ip_nonneg (l r : List InterestPoint) (h : l ≠ []) :
    0 ≤ calcAverageDeltaY_ip l r := by
  have hl : l.length ≠ 0 := by simpa using h
  simp only [calcAverageDeltaY_ip, hl, ne_eq, not_false_eq_true, if_true]
  exact div_nonneg (accuDeltaY_ip_nonneg l r) (Nat.cast_nonneg _)

theorem calcAverageDeltaY_ip_nil (r : List InterestPoint) : calcAverageDeltaY_ip [] r = -1 := by
  simp [calcAverageDeltaY_ip]

/-- With a threshold of zero no residual can be strictly smaller: the pair form rejects. -/
theorem check_homography_matrix_zero_threshold (L R : Matrix3) (lp rp : List Vector3)
    (bbox : BBox2i) : check_homography_matrix L R lp rp 0 bbox = false := by
  unfold check_homography_matrix
  simp only
  split
  · rfl
  · split
    · rfl
    · rcases calcAverageDeltaY_cases
          ((transformedPoints L R lp rp).map Prod.fst)
          ((transformedPoints L R lp rp).map Prod.snd) with h | h
      · simp [h]
      · simp [h]

/-- The pair form accepts only a non-empty left list. -/
theorem check_homography_matrix_true_ne_nil (L R : Matrix3) (lp rp : List Vector3)
    (thr : ℚ) (bbox : BBox2i) (h : check_homography_matrix L R lp rp thr bbox = true) :
    lp ≠ [] := by
  rintro rfl
  simp [check_homography_matrix, transformedPoints, calcAverageDeltaY] at h

theorem transformedPoints_length (L R : Matrix3) (l r : List Vector3)
    (h : l.length = r.length) : (transformedPoints L R l r).length = l.length := by
  induction l generalizing r with
  | nil => simp [transformedPoints]
  | cons a l ih =>
    cases r with
    | nil => simp at h
    | cons b r =>
      simp only [List.length_cons, add_left_inj] at h
      simp [transformedPoints, ih r h]

/-- On correspondences whose transformed points have non-zero homogeneous coordinates,
the residuals accumulated by the code are the residuals of the normalised points. -/
theorem transformedPoints_residuals (L R : Matrix3) (l r : List Vector3)
    (hz : ∀ p ∈ List.zip l r,
      (L.mulVec ⟨p.1.x, p.1.y, 1⟩).z ≠ 0 ∧ (R.mulVec ⟨p.2.x, p.2.y, 1⟩).z ≠ 0) :
    List.zipWith (fun a b => |a.y - b.y|)
        ((transformedPoints L R l r).map Prod.fst) ((transformedPoints L R l r).map Prod.snd)
      = List.zipWith
          (fun l r =>
            |(L.mulVec ⟨l.x, l.y, 1⟩).y / (L.mulVec ⟨l.x, l.y, 1⟩).z
              - (R.mulVec ⟨r.x, r.y, 1⟩).y / (R.mulVec ⟨r.x, r.y, 1⟩).z|) l r := by
  induction l generalizing r with
  | nil => simp [transformedPoints]
  | cons a l ih =>
    cases r with
    | nil => simp [transformedPoints]
    | cons b r =>
      have hab := hz (a, b) (by simp)
      have htl := ih r (fun p hp => hz p (by simp [hp]))
      simp only [transformedPoints, List.map_cons, List.zipWith_cons_cons, htl]
      congr 1
      simp [normalizePair, hab.1, hab.2, Vector3.divScalar]

theorem accuDeltaY_ip_same_rows (acc : ℚ) (l r : List InterestPoint)
    (h : List.Forall₂ (fun a b => a.y = b.y) l r) : accuDeltaY_ip acc l r = acc := by
  induction h generalizing acc with
  | nil => simp [accuDeltaY_ip]
  | cons hab _ ih => simp [accuDeltaY_ip, hab, ih]

/-- Matches without vertical offset have the "not valid" average `-1` (no match) or the
average 0. -/
theorem calcAverageDeltaY_ip_same_rows (l r : List InterestPoint)
    (h : List.Forall₂ (fun a b => a.y = b.y) l r) :
    calcAverageDeltaY_ip l r = -1 ∨ calcAverageDeltaY_ip l r = 0 := by
  unfold calcAverageDeltaY_ip
  split
  · right
    rw [accuDeltaY_ip_same_rows 0 l r h, zero_div]
  · left; rfl

theorem foldl_update_bounds (ds : List (Int × Int)) (b0 : DiffBounds) :
    ((ds.foldl DiffBounds.update b0).minDiffX ≤ b0.minDiffX
      ∧ b0.maxDiffX ≤ (ds.foldl DiffBounds.update b0).maxDiffX
      ∧ (ds.foldl DiffBounds.update b0).minDiffY ≤ b0.minDiffY
      ∧ b0.maxDiffY ≤ (ds.foldl DiffBounds.update b0).maxDiffY)
    ∧ ∀ d ∈ ds,
      (ds.foldl DiffBounds.update b0).minDiffX ≤ d.1
      ∧ d.1 ≤ (ds.foldl DiffBounds.update b0).maxDiffX
      ∧ (ds.foldl DiffBounds.update b0).minDiffY ≤ d.2
      ∧ d.2 ≤ (ds.foldl DiffBounds.update b0).maxDiffY := by
  induction ds generalizing b0 with
  | nil => simp
  | cons e ds ih =>
    obtain ⟨⟨h1, h2, h3, h4⟩, hall⟩ := ih (b0.update e)
    simp only [List.foldl_cons]
    have u1 : (b0.update e).minDiffX ≤ b0.minDiffX ∧ (b0.update e).minDiffX ≤ e.1 := by
      simp only [DiffBounds.update]; split_ifs <;> omega
    have u2 : b0.maxDiffX ≤ (b0.update e).maxDiffX ∧ e.1 ≤ (b0.update e).maxDiffX := by
      simp only [DiffBounds.update]; split_ifs <;> omega
    have u3 : (b0.update e).minDiffY ≤ b0.minDiffY ∧ (b0.update e).minDiffY ≤ e.2 := by
      simp only [DiffBounds.update]; split_ifs <;> omega
    have u4 : b0.maxDiffY ≤ (b0.update e).maxDiffY ∧ e.2 ≤ (b0.update e).maxDiffY := by
      simp only [DiffBounds.update]; split_ifs <;> omega
    refine ⟨⟨by omega, by omega, by omega, by omega⟩, ?_⟩
    intro d hd
    rcases List.mem_cons.mp hd with rfl | hd
    · exact ⟨by omega, by omega, by omega, by omega⟩
    · exact hall d hd

theorem foldl_update_attained (ds : List (Int × Int)) (b0 : DiffBounds) :
    ((ds.foldl DiffBounds.update b0).minDiffX = b0.minDiffX
        ∨ ∃ d ∈ ds, (ds.foldl DiffBounds.update b0).minDiffX = d.1)
    ∧ ((ds.foldl DiffBounds.update b0).maxDiffX = b0.maxDiffX
        ∨ ∃ d ∈ ds, (ds.foldl DiffBounds.update b0).maxDiffX = d.1)
    ∧ ((ds.foldl DiffBounds.update b0).minDiffY = b0.minDiffY
        ∨ ∃ d ∈ ds, (ds.foldl DiffBounds.update b0).minDiffY = d.2)
    ∧ ((ds.foldl DiffBounds.update b0).maxDiffY = b0.maxDiffY
        ∨ ∃ d ∈ ds, (ds.foldl DiffBounds.update b0).maxDiffY = d.2) := by
  induction ds generalizing b0 with
  | nil => simp
  | cons e ds ih =>
    obtain ⟨h1, h2, h3, h4⟩ := ih (b0.update e)
    simp only [List.foldl_cons]
    have u1 : (b0.update e).minDiffX = b0.minDiffX ∨ (b0.update e).minDiffX = e.1 := by
      simp only [DiffBounds.update]; split_ifs <;> simp
    have u2 : (b0.update e).maxDiffX = b0.maxDiffX ∨ (b0.update e).maxDiffX = e.1 := by
      simp only [DiffBounds.update]; split_ifs <;> simp
    have u3 : (b0.update e).minDiffY = b0.minDiffY ∨ (b0.update e).minDiffY = e.2 := by
      simp only [DiffBounds.update]; split_ifs <;> simp
    have u4 : (b0.update e).maxDiffY = b0.maxDiffY ∨ (b0.update e).maxDiffY = e.2 := by
      simp only [DiffBounds.update]; split_ifs <;> simp
    refine ⟨?_, ?_, ?_, ?_⟩
    · rcases h1 with h | ⟨d, hd, h⟩
      · rcases u1 with u | u
        · left; rw [h, u]
        · right; exact ⟨e, by simp, by rw [h, u]⟩
      · right; exact ⟨d, by simp [hd], h⟩
    · rcases h2 with h | ⟨d, hd, h⟩
      · rcases u2 with u | u
        · left; rw [h, u]
        · right; exact ⟨e, by simp, by rw [h, u]⟩
      · right; exact ⟨d, by simp [hd], h⟩
    · rcases h3 with h | ⟨d, hd, h⟩
      · rcases u3 with u | u
        · left; rw [h, u]
        · right; exact ⟨e, by simp, by rw [h, u]⟩
      · right; exact ⟨d, by simp [hd], h⟩
    · rcases h4 with h | ⟨d, hd, h⟩
      · rcases u4 with u | u
        · left; rw [h, u]
        · right; exact ⟨e, by simp, by rw [h, u]⟩
      · right; exact ⟨d, by simp [hd], h⟩

/-- On correspondences whose transformed points have non-zero homogeneous coordinates,
the `int` differences of `calcSearchRange` are the truncated offsets `R*p_right - L*p_left`
of the normalised points. -/
theorem diffList_transPoints (L R : Matrix3) (l r : List InterestPoint)
    (hz : ∀ p ∈ List.zip l r,
      (L.mulVec ⟨p.1.x, p.1.y, 1⟩).z ≠ 0 ∧ (R.mulVec ⟨p.2.x, p.2.y, 1⟩).z ≠ 0) :
    diffList (transPoints L R l r)
      = (specOffsets L R l r).map fun o => (truncToInt o.x, truncToInt o.y) := by
  induction l generalizing r with
  | nil => simp [transPoints, diffList, specOffsets]
  | cons a l ih =>
    cases r with
    | nil => simp [transPoints, diffList, specOffsets]
    | cons b r =>
      have hab := hz (a, b) (by simp)
      have htl := ih r (fun p hp => hz p (by simp [hp]))
      simp only [diffList, specOffsets] at htl ⊢
      simp only [transPoints, List.map_cons, List.zipWith_cons_cons, htl]
      congr 1
      simp [normalizePair, hab.1, hab.2, Vector3.divScalar]

/-- The corners of the box returned by `calcSearchRange`: `multi` times the extrema. -/
theorem calcSearchRange_corners (l r : List InterestPoint) (L R : Matrix3) (multi : ℚ) :
    (calcSearchRange l r L R multi).min.x
        = multi * ((diffList (transPoints L R l r)).foldl DiffBounds.update
            ⟨0, 0, 0, 0⟩).minDiffX
    ∧ (calcSearchRange l r L R multi).max.x
        = multi * ((diffList (transPoints L R l r)).foldl DiffBounds.update
            ⟨0, 0, 0, 0⟩).maxDiffX
    ∧ (calcSearchRange l r L R multi).min.y
        = multi * ((diffList (transPoints L R l r)).foldl DiffBounds.update
            ⟨0, 0, 0, 0⟩).minDiffY
    ∧ (calcSearchRange l r L R multi).max.y
        = multi * ((diffList (transPoints L R l r)).foldl DiffBounds.update
            ⟨0, 0, 0, 0⟩).maxDiffY := by
  simp [calcSearchRange, BBox2f.ofMinSize]

/-- The fit `(identity, shiftUp)` is accepted on `shiftedLeft`/`shiftedRightHalf`. -/
theorem check_shiftedRightHalf :
    calcAverageDeltaY_ip shiftedLeft shiftedRightHalf = 1
    ∧ check_homography_matrix identity_matrix shiftUp (iplist_to_vectorlist shiftedLeft)
        (iplist_to_vectorlist shiftedRightHalf) 1 originTile = true := by
  constructor
  · norm_num [calcAverageDeltaY_ip, accuDeltaY_ip, shiftedLeft, shiftedRightHalf]
  · norm_num [check_homography_matrix, det2, identity_matrix, shiftUp, iplist_to_vectorlist,
      shiftedLeft, shiftedRightHalf, transformedPoints, normalizePair, Matrix3.mulVec,
      Vector3.divScalar, calcAverageDeltaY, accuDeltaY]

/-! ## C1: the inverse-warp loop of `prerasterize` -/

/-- C1 (evaluation of the code where it departs from the claim).  Interior tile
`[64,128) x [64,128)` of a 256x256 image, left transform `diag(1, 2, 1)`, Matcher
disparity zero everywhere: the tile pixel `(0, 0)` is the pixel `(50, 50)` of the expanded
frame, the loop looks the disparity up at `(50, 50)` but forward-maps and subtracts
`(0, 0)`, and emits `(0, 0)` where forward map, lookup and subtraction at `(50, 50)` give
`(0, 50)`.  Border tile `[0,64) x [0,64)` with the identity transform: the tile pixel
`(0, 0)` is the pixel `(0, 0)` of the expanded frame (the margin is cropped away), the
loop reads disparity and mask at `(50, 50)` and emits an invalid `(7, 0)` where the pixel
`(0, 0)` holds a valid `(3, 0)`. -/
theorem C1_inverse_warp_mixes_pixels :
    (expandedFramePixel interiorTile 256 256 0 0 = ⟨50, 50⟩
      ∧ stereo_result_corrected stretchY (fun _ _ => ⟨0, 0⟩) (fun _ _ => 1) 0 0
          = ⟨⟨0, 0⟩, true⟩
      ∧ specCorrectedPixel stretchY (fun _ _ => ⟨0, 0⟩) (fun _ _ => 1)
          (expandedFramePixel interiorTile 256 256 0 0) = ⟨⟨0, 50⟩, true⟩)
    ∧ (expandedFramePixel originTile 256 256 0 0 = ⟨0, 0⟩
      ∧ stereo_result_corrected identity_matrix
          (fun x _ => if x < 50 then ⟨3, 0⟩ else ⟨7, 0⟩) (fun x _ => if x < 50 then 1 else 0)
          0 0 = ⟨⟨7, 0⟩, false⟩
      ∧ specCorrectedPixel identity_matrix
          (fun x _ => if x < 50 then ⟨3, 0⟩ else ⟨7, 0⟩) (fun x _ => if x < 50 then 1 else 0)
          (expandedFramePixel originTile 256 256 0 0) = ⟨⟨3, 0⟩, true⟩) := by
  have h1 : expandedFramePixel interiorTile 256 256 0 0 = ⟨50, 50⟩ := by decide
  have h2 : expandedFramePixel originTile 256 256 0 0 = ⟨0, 0⟩ := by decide
  refine ⟨⟨h1, ?_, ?_⟩, ⟨h2, ?_, ?_⟩⟩
  · simp [stereo_result_corrected, HomographyTransform.forward, stretchY]
  · rw [h1]
    norm_num [specCorrectedPixel, HomographyTransform.forward, stretchY]
  · simp [stereo_result_corrected, HomographyTransform.forward, identity_matrix, margin]
  · rw [h2]
    norm_num [specCorrectedPixel, HomographyTransform.forward, identity_matrix]

/-! ## C2: the determinant gate of `check_homography_matrix` -/

/-- C2 (counterexample to the claim as stated).  The reflection `diag(1, -1, 1)` has
linear-part determinant `-1 <= 0.1`, yet both forms of `check_homography_matrix` accept
it on a correspondence with zero residual: the gate tests the absolute value. -/
theorem C2_negative_determinant_accepted :
    det2 reflectY ≤ 1 / 10
    ∧ check_homography_matrix reflectY reflectY [⟨0, 0, 1⟩] [⟨0, 0, 1⟩] 1 originTile = true
    ∧ check_homography_matrix_single reflectY [⟨0, 0, 1⟩] [⟨0, 0, 1⟩] [0] 1 originTile
        = true := by
  refine ⟨?_, ?_, ?_⟩
  · norm_num [det2, reflectY]
  · norm_num [check_homography_matrix, det2, reflectY, transformedPoints, normalizePair,
      Matrix3.mulVec, Vector3.divScalar, calcAverageDeltaY, accuDeltaY]
  · norm_num [check_homography_matrix_single, det2, reflectY, transformedPoints_single,
      normalizePair, Matrix3.mulVec, Vector3.divScalar, calcAverageDeltaY, accuDeltaY]

/-- C2 (amended).  Whenever the absolute value of the determinant of the linear part of
the left or of the right matrix (pair form), or of `H` (single-matrix form), is `<= 0.1`
or `>= 10.0`, `check_homography_matrix` returns false, whatever the correspondences, the
threshold and hence the residual are. -/
theorem C2_abs_determinant_gate (L R H : Matrix3) (left_points right_points : List Vector3)
    (indices : List Nat) (minAvgDeltaY : ℚ) (bbox : BBox2i) :
    ((|det2 L| ≤ 1 / 10 ∨ |det2 L| ≥ 10 ∨ |det2 R| ≤ 1 / 10 ∨ |det2 R| ≥ 10) →
        check_homography_matrix L R left_points right_points minAvgDeltaY bbox = false)
    ∧ ((|det2 H| ≤ 1 / 10 ∨ |det2 H| ≥ 10) →
        check_homography_matrix_single H left_points right_points indices minAvgDeltaY bbox
          = false) := by
  constructor
  · intro h
    unfold check_homography_matrix
    simp only
    by_cases hL : |det2 L| ≤ 1 / 10 ∨ |det2 L| ≥ 10
    · rw [if_pos hL]
    · rw [if_neg hL]
      have hR : |det2 R| ≤ 1 / 10 ∨ |det2 R| ≥ 10 := by tauto
      rw [if_pos hR]
  · intro h
    unfold check_homography_matrix_single
    simp only
    rw [if_pos h]

/-- C2 (witness): the gate at `diag(4, 4, 1)`, whose linear part has determinant 16. -/
theorem C2_abs_determinant_gate_witness :
    check_homography_matrix scale4 scale4 [⟨0, 0, 1⟩] [⟨0, 0, 1⟩] 1 originTile = false
    ∧ check_homography_matrix_single scale4 [⟨0, 0, 1⟩] [⟨0, 0, 1⟩] [0] 1 originTile
        = false :=
  ⟨(C2_abs_determinant_gate scale4 scale4 scale4 [⟨0, 0, 1⟩] [⟨0, 0, 1⟩] [0] 1 originTile).1
      (by norm_num [det2, scale4]),
   (C2_abs_determinant_gate scale4 scale4 scale4 [⟨0, 0, 1⟩] [⟨0, 0, 1⟩] [0] 1 originTile).2
      (by norm_num [det2, scale4])⟩

/-! ## C3: the residual test of `check_homography_matrix` -/

/-- C3.  For a left/right matrix pair that passes the determinant gate and a non-empty
list of correspondences (whose transformed points have non-zero homogeneous coordinates,
so that their normalisation is defined), `check_homography_matrix` returns true if and
only if the mean of `|y(L*p_left) - y(R*p_right)|` over the normalised transformed points
is strictly smaller than `minAvgDeltaY`; a residual equal to the threshold is rejected. -/
theorem C3_accept_iff_mean_residual_below (L R : Matrix3)
    (left_points right_points : List Vector3) (minAvgDeltaY : ℚ) (bbox : BBox2i)
    (hL : 1 / 10 < |det2 L| ∧ |det2 L| < 10) (hR : 1 / 10 < |det2 R| ∧ |det2 R| < 10)
    (hne : left_points ≠ []) (hlen : left_points.length = right_points.length)
    (hz : ∀ p ∈ List.zip left_points right_points,
      (L.mulVec ⟨p.1.x, p.1.y, 1⟩).z ≠ 0 ∧ (R.mulVec ⟨p.2.x, p.2.y, 1⟩).z ≠ 0) :
    (check_homography_matrix L R left_points right_points minAvgDeltaY bbox = true
        ↔ meanAbsDeltaY L R left_points right_points < minAvgDeltaY)
    ∧ (meanAbsDeltaY L R left_points right_points = minAvgDeltaY →
        check_homography_matrix L R left_points right_points minAvgDeltaY bbox = false) := by
  have hgL : ¬ (|det2 L| ≤ 1 / 10 ∨ |det2 L| ≥ 10) := by
    rintro (h | h)
    · exact absurd hL.1 (not_lt.mpr h)
    · exact absurd hL.2 (not_lt.mpr h)
  have hgR : ¬ (|det2 R| ≤ 1 / 10 ∨ |det2 R| ≥ 10) := by
    rintro (h | h)
    · exact absurd hR.1 (not_lt.mpr h)
    · exact absurd hR.2 (not_lt.mpr h)
  have hlen0 : left_points.length ≠ 0 := by simpa using hne
  have havg : calcAverageDeltaY
        ((transformedPoints L R left_points right_points).map Prod.fst)
        ((transformedPoints L R left_points right_points).map Prod.snd)
      = meanAbsDeltaY L R left_points right_points := by
    unfold calcAverageDeltaY meanAbsDeltaY
    rw [List.length_map, transformedPoints_length L R _ _ hlen, if_pos hlen0,
      accuDeltaY_eq_sum, zero_add, transformedPoints_residuals L R _ _ hz]
  have hnonneg : 0 ≤ meanAbsDeltaY L R left_points right_points := by
    unfold meanAbsDeltaY
    exact div_nonneg (sum_zipWith_nonneg _ (fun a b => abs_nonneg _) _ _) (Nat.cast_nonneg _)
  have hne1 : meanAbsDeltaY L R left_points right_points ≠ -1 := by
    intro h
    rw [h] at hnonneg
    norm_num at hnonneg
  have key : check_homography_matrix L R left_points right_points minAvgDeltaY bbox
      = decide (meanAbsDeltaY L R left_points right_points < minAvgDeltaY) := by
    unfold check_homography_matrix
    simp only
    rw [if_neg hgL, if_neg hgR, havg]
    by_cases hlt : meanAbsDeltaY L R left_points right_points < minAvgDeltaY
    · simp [hlt, hne1]
    · simp [hlt, not_lt.mp hlt]
  constructor
  · rw [key]; simp
  · intro h
    rw [key]; simp [h]

/-- C3 (witness): identity matrices on the matches of `shiftedLeft`/`shiftedRight`,
whose mean vertical residual is 1: accepted below the threshold 2, rejected at the
threshold 1. -/
theorem C3_accept_iff_mean_residual_below_witness :
    (check_homography_matrix identity_matrix identity_matrix
          (iplist_to_vectorlist shiftedLeft) (iplist_to_vectorlist shiftedRight) 2 originTile
          = true
        ↔ meanAbsDeltaY identity_matrix identity_matrix
            (iplist_to_vectorlist shiftedLeft) (iplist_to_vectorlist shiftedRight) < 2)
    ∧ (meanAbsDeltaY identity_matrix identity_matrix
            (iplist_to_vectorlist shiftedLeft) (iplist_to_vectorlist shiftedRight) = 2 →
        check_homography_matrix identity_matrix identity_matrix
          (iplist_to_vectorlist shiftedLeft) (iplist_to_vectorlist shiftedRight) 2 originTile
          = false) :=
  C3_accept_iff_mean_residual_below identity_matrix identity_matrix
    (iplist_to_vectorlist shiftedLeft) (iplist_to_vectorlist shiftedRight) 2 originTile
    (by norm_num [det2, identity_matrix]) (by norm_num [det2, identity_matrix])
    (by simp [iplist_to_vectorlist, shiftedLeft])
    (by simp [iplist_to_vectorlist, shiftedLeft, shiftedRight])
    (by simp [iplist_to_vectorlist, shiftedLeft, shiftedRight, Matrix3.mulVec, identity_matrix])

/-! ## C4 - C7: the fall-back paths of `piecewiseAlignment_affineepipolar` -/

/-- C4.  If feature matching yields no correspondences, if the fitting routine throws,
or if `check_homography_matrix` returns false on the fitted pair, then on return both
matrices are the identity and the returned range is the caller's `local_search_range`. -/
theorem C4_failure_returns_identity_and_caller_range (fit : AffineEpipolarFit)
    (ip1 ip2 : List InterestPoint) (bbox : BBox2i) (left_size right_size : Vector2i)
    (left_matrix right_matrix : Matrix3) (local_search_range : BBox2f)
    (h : ip1 = []
      ∨ fit left_size right_size ip1 ip2 = none
      ∨ ∃ sz L R, fit left_size right_size ip1 ip2 = some (sz, L, R)
          ∧ check_homography_matrix L R (iplist_to_vectorlist ip1) (iplist_to_vectorlist ip2)
              (calcAverageDeltaY_ip ip1 ip2) bbox = false) :
    (piecewiseAlignment_affineepipolar fit ip1 ip2 bbox left_size right_size
        left_matrix right_matrix local_search_range).left_matrix = identity_matrix
    ∧ (piecewiseAlignment_affineepipolar fit ip1 ip2 bbox left_size right_size
        left_matrix right_matrix local_search_range).right_matrix = identity_matrix
    ∧ (piecewiseAlignment_affineepipolar fit ip1 ip2 bbox left_size right_size
        left_matrix right_matrix local_search_range).range = local_search_range := by
  rcases h with h | h | ⟨sz, L, R, hfit, hchk⟩
  · subst h
    have hcond : ¬ ((-1 : ℚ) ≠ -1 ∨ (-1 : ℚ) ≥ 3) := by norm_num
    unfold piecewiseAlignment_affineepipolar
    simp only [calcAverageDeltaY_ip_nil]
    rw [if_neg hcond]
    exact ⟨rfl, rfl, rfl⟩
  · unfold piecewiseAlignment_affineepipolar
    simp only
    split
    · simp [h]
    · simp
  · unfold piecewiseAlignment_affineepipolar
    simp only
    split
    · simp [hfit, hchk]
    · simp

/-- C4 (witness): a tile whose fit throws. -/
theorem C4_failure_returns_identity_and_caller_range_witness :
    (piecewiseAlignment_affineepipolar fitThrows shiftedLeft shiftedRight originTile
        ⟨64, 64⟩ ⟨64, 64⟩ identity_matrix identity_matrix unitRange).left_matrix
      = identity_matrix
    ∧ (piecewiseAlignment_affineepipolar fitThrows shiftedLeft shiftedRight originTile
        ⟨64, 64⟩ ⟨64, 64⟩ identity_matrix identity_matrix unitRange).right_matrix
      = identity_matrix
    ∧ (piecewiseAlignment_affineepipolar fitThrows shiftedLeft shiftedRight originTile
        ⟨64, 64⟩ ⟨64, 64⟩ identity_matrix identity_matrix unitRange).range = unitRange :=
  C4_failure_returns_identity_and_caller_range fitThrows shiftedLeft shiftedRight originTile
    ⟨64, 64⟩ ⟨64, 64⟩ identity_matrix identity_matrix unitRange (Or.inr (Or.inl rfl))

/-- C5 (evaluation of the code where it departs from the claim).  For a 64x64 tile whose
fit returns the render size `(256, 256)` with matrices `diag(4, 4, 1)`, the quality gate
rejects the fit (determinant 16), both matrices and the range fall back as on a fitting
failure, but `left_size` keeps the fitted render size `(256, 256)`; when the fit throws on
the same tile, `left_size` stays the caller's `(64, 64)`. -/
theorem C5_rejection_keeps_fitted_render_size :
    check_homography_matrix scale4 scale4 (iplist_to_vectorlist shiftedLeft)
        (iplist_to_vectorlist shiftedRight) (calcAverageDeltaY_ip shiftedLeft shiftedRight)
        originTile = false
    ∧ piecewiseAlignment_affineepipolar fitScale4 shiftedLeft shiftedRight originTile
        ⟨64, 64⟩ ⟨64, 64⟩ identity_matrix identity_matrix unitRange
      = ⟨unitRange, ⟨256, 256⟩, identity_matrix, identity_matrix⟩
    ∧ piecewiseAlignment_affineepipolar fitThrows shiftedLeft shiftedRight originTile
        ⟨64, 64⟩ ⟨64, 64⟩ identity_matrix identity_matrix unitRange
      = ⟨unitRange, ⟨64, 64⟩, identity_matrix, identity_matrix⟩ := by
  have hchk : ∀ thr, check_homography_matrix scale4 scale4 (iplist_to_vectorlist shiftedLeft)
      (iplist_to_vectorlist shiftedRight) thr originTile = false := by
    intro thr
    have hdet : |det2 scale4| = 16 := by norm_num [det2, scale4]
    norm_num [check_homography_matrix, hdet]
  have havg : calcAverageDeltaY_ip shiftedLeft shiftedRight = 1 := by
    norm_num [calcAverageDeltaY_ip, accuDeltaY_ip, shiftedLeft, shiftedRight]
  refine ⟨hchk _, ?_, ?_⟩
  · norm_num [piecewiseAlignment_affineepipolar, havg, fitScale4, hchk]
  · norm_num [piecewiseAlignment_affineepipolar, havg, fitThrows]

/-- C6 (evaluation of the code where it departs from the claim).  The matches of
`shiftedLeft`/`shiftedRight` have `avgDeltaY = 1 < 3`, yet the function calls the fit,
accepts it and returns the fitted right matrix and the range of `calcSearchRange`, not the
identity and the caller's range. -/
theorem C6_small_offset_still_fitted :
    calcAverageDeltaY_ip shiftedLeft shiftedRight = 1
    ∧ piecewiseAlignment_affineepipolar fitShiftUp shiftedLeft shiftedRight originTile
        ⟨64, 64⟩ ⟨64, 64⟩ identity_matrix identity_matrix unitRange
      = ⟨⟨⟨0, 0⟩, ⟨0, 0⟩⟩, ⟨64, 63⟩, identity_matrix, shiftUp⟩
    ∧ shiftUp ≠ identity_matrix
    ∧ (⟨⟨0, 0⟩, ⟨0, 0⟩⟩ : BBox2f) ≠ unitRange := by
  have havg : calcAverageDeltaY_ip shiftedLeft shiftedRight = 1 := by
    norm_num [calcAverageDeltaY_ip, accuDeltaY_ip, shiftedLeft, shiftedRight]
  have hchk : check_homography_matrix identity_matrix shiftUp
      (iplist_to_vectorlist shiftedLeft) (iplist_to_vectorlist shiftedRight) 1 originTile
      = true := by
    norm_num [check_homography_matrix, det2, identity_matrix, shiftUp, iplist_to_vectorlist,
      shiftedLeft, shiftedRight, transformedPoints, normalizePair, Matrix3.mulVec,
      Vector3.divScalar, calcAverageDeltaY, accuDeltaY]
  have hrange : calcSearchRange shiftedLeft shiftedRight identity_matrix shiftUp 2
      = ⟨⟨0, 0⟩, ⟨0, 0⟩⟩ := by
    norm_num [calcSearchRange, diffList, transPoints, normalizePair, Matrix3.mulVec,
      Vector3.divScalar, identity_matrix, shiftUp, shiftedLeft, shiftedRight, truncToInt,
      DiffBounds.update, BBox2f.ofMinSize]
  refine ⟨havg, ?_, by decide, by decide⟩
  norm_num [piecewiseAlignment_affineepipolar, havg, fitShiftUp, hchk, hrange]

/-- C7.  When every matched left point has the same `y` as its right point,
`piecewiseAlignment_affineepipolar` returns the identity for both transforms and the
caller's search range, whatever the fitting routine computes or throws. -/
theorem C7_zero_vertical_offset_returns_identity (fit : AffineEpipolarFit)
    (ip1 ip2 : List InterestPoint) (bbox : BBox2i) (left_size right_size : Vector2i)
    (left_matrix right_matrix : Matrix3) (local_search_range : BBox2f)
    (h : List.Forall₂ (fun l r => l.y = r.y) ip1 ip2) :
    (piecewiseAlignment_affineepipolar fit ip1 ip2 bbox left_size right_size
        left_matrix right_matrix local_search_range).left_matrix = identity_matrix
    ∧ (piecewiseAlignment_affineepipolar fit ip1 ip2 bbox left_size right_size
        left_matrix right_matrix local_search_range).right_matrix = identity_matrix
    ∧ (piecewiseAlignment_affineepipolar fit ip1 ip2 bbox left_size right_size
        left_matrix right_matrix local_search_range).range = local_search_range := by
  unfold piecewiseAlignment_affineepipolar
  simp only
  rcases calcAverageDeltaY_ip_same_rows ip1 ip2 h with h1 | h0
  · rw [h1]
    norm_num
  · rw [h0]
    split
    · cases hfit : fit left_size right_size ip1 ip2 with
      | none => simp
      | some res =>
        obtain ⟨sz, L, R⟩ := res
        simp [check_homography_matrix_zero_threshold]
    · simp

/-- C7 (witness): two identical crops matched point for point, with a fit that would
shift the right image. -/
theorem C7_zero_vertical_offset_returns_identity_witness :
    (piecewiseAlignment_affineepipolar fitShiftUp shiftedLeft shiftedLeft originTile
        ⟨64, 64⟩ ⟨64, 64⟩ identity_matrix identity_matrix unitRange).left_matrix
      = identity_matrix
    ∧ (piecewiseAlignment_affineepipolar fitShiftUp shiftedLeft shiftedLeft originTile
        ⟨64, 64⟩ ⟨64, 64⟩ identity_matrix identity_matrix unitRange).right_matrix
      = identity_matrix
    ∧ (piecewiseAlignment_affineepipolar fitShiftUp shiftedLeft shiftedLeft originTile
        ⟨64, 64⟩ ⟨64, 64⟩ identity_matrix identity_matrix unitRange).range = unitRange :=
  C7_zero_vertical_offset_returns_identity fitShiftUp shiftedLeft shiftedLeft originTile
    ⟨64, 64⟩ ⟨64, 64⟩ identity_matrix identity_matrix unitRange
    (by simp [shiftedLeft])

/-! ## C8: the success path of `piecewiseAlignment_affineepipolar` -/

/-- C8 (counterexample to the claim as stated).  The matches of
`shiftedLeft`/`shiftedRightHalf` with the fit `(identity, shiftUp)` take the success path;
every transformed offset is `(5/2, 0)`, whose bounding box with corners doubled is the
point `(5, 0)`, but the returned range is `[0, 4] x [0, 0]`: the offsets are truncated to
`int` and the bounds start from the zero offset. -/
theorem C8_range_is_not_offset_bbox :
    check_homography_matrix identity_matrix shiftUp (iplist_to_vectorlist shiftedLeft)
        (iplist_to_vectorlist shiftedRightHalf)
        (calcAverageDeltaY_ip shiftedLeft shiftedRightHalf) originTile = true
    ∧ specSearchRange 2 (specOffsets identity_matrix shiftUp shiftedLeft shiftedRightHalf)
        = some ⟨⟨5, 0⟩, ⟨5, 0⟩⟩
    ∧ (piecewiseAlignment_affineepipolar fitShiftUp shiftedLeft shiftedRightHalf originTile
        ⟨64, 64⟩ ⟨64, 64⟩ identity_matrix identity_matrix unitRange).range
        = ⟨⟨0, 0⟩, ⟨4, 0⟩⟩ := by
  obtain ⟨havg, hchk⟩ := check_shiftedRightHalf
  have hfloor : ⌊(5 / 2 : ℚ)⌋ = 2 := by
    rw [Int.floor_eq_iff]; norm_num
  have hrange : calcSearchRange shiftedLeft shiftedRightHalf identity_matrix shiftUp 2
      = ⟨⟨0, 0⟩, ⟨4, 0⟩⟩ := by
    norm_num [calcSearchRange, diffList, transPoints, normalizePair, Matrix3.mulVec,
      Vector3.divScalar, identity_matrix, shiftUp, shiftedLeft, shiftedRightHalf, truncToInt,
      DiffBounds.update, BBox2f.ofMinSize, hfloor]
  refine ⟨by rw [havg]; exact hchk, ?_, ?_⟩
  · norm_num [specSearchRange, specOffsets, shiftedLeft, shiftedRightHalf, Matrix3.mulVec,
      identity_matrix, shiftUp]
  · norm_num [piecewiseAlignment_affineepipolar, havg, fitShiftUp, hchk, hrange]

/-- C8 (amended).  On the success path (the fit returns and `check_homography_matrix`
accepts it) the function returns the fitted matrices and the range of
`calcSearchRange(..., 2)`: the axis-aligned bounding box of the zero offset together with
the offsets of the transformed correspondences truncated toward zero to integers, with
both corners multiplied by 2.  The box contains twice every truncated offset and the zero
offset, and each of its four bounds is attained by zero or by twice a truncated offset;
as it contains zero, the doubled box also contains every truncated offset itself.
Where the transformed points have non-zero homogeneous coordinates, these offsets are
the truncations of `R*p_right - L*p_left` on the normalised points. -/
theorem C8_success_range_is_truncated_offset_bbox (fit : AffineEpipolarFit)
    (ip1 ip2 : List InterestPoint) (bbox : BBox2i) (left_size right_size : Vector2i)
    (left_matrix right_matrix : Matrix3) (local_search_range : BBox2f)
    (sz : Vector2i) (L R : Matrix3)
    (hfit : fit left_size right_size ip1 ip2 = some (sz, L, R))
    (hchk : check_homography_matrix L R (iplist_to_vectorlist ip1) (iplist_to_vectorlist ip2)
      (calcAverageDeltaY_ip ip1 ip2) bbox = true) :
    (piecewiseAlignment_affineepipolar fit ip1 ip2 bbox left_size right_size
        left_matrix right_matrix local_search_range)
      = ⟨calcSearchRange ip1 ip2 L R 2, sz, L, R⟩
    ∧ (∀ d ∈ diffList (transPoints L R ip1 ip2),
        (calcSearchRange ip1 ip2 L R 2).min.x ≤ 2 * d.1
        ∧ 2 * d.1 ≤ (calcSearchRange ip1 ip2 L R 2).max.x
        ∧ (calcSearchRange ip1 ip2 L R 2).min.y ≤ 2 * d.2
        ∧ 2 * d.2 ≤ (calcSearchRange ip1 ip2 L R 2).max.y)
    ∧ ((calcSearchRange ip1 ip2 L R 2).min.x ≤ 0 ∧ 0 ≤ (calcSearchRange ip1 ip2 L R 2).max.x
        ∧ (calcSearchRange ip1 ip2 L R 2).min.y ≤ 0
        ∧ 0 ≤ (calcSearchRange ip1 ip2 L R 2).max.y)
    ∧ (((calcSearchRange ip1 ip2 L R 2).min.x = 0
          ∨ ∃ d ∈ diffList (transPoints L R ip1 ip2),
              (calcSearchRange ip1 ip2 L R 2).min.x = 2 * d.1)
        ∧ ((calcSearchRange ip1 ip2 L R 2).max.x = 0
          ∨ ∃ d ∈ diffList (transPoints L R ip1 ip2),
              (calcSearchRange ip1 ip2 L R 2).max.x = 2 * d.1)
        ∧ ((calcSearchRange ip1 ip2 L R 2).min.y = 0
          ∨ ∃ d ∈ diffList (transPoints L R ip1 ip2),
              (calcSearchRange ip1 ip2 L R 2).min.y = 2 * d.2)
        ∧ ((calcSearchRange ip1 ip2 L R 2).max.y = 0
          ∨ ∃ d ∈ diffList (transPoints L R ip1 ip2),
              (calcSearchRange ip1 ip2 L R 2).max.y = 2 * d.2))
    ∧ (∀ d ∈ diffList (transPoints L R ip1 ip2),
        (calcSearchRange ip1 ip2 L R 2).min.x ≤ d.1
        ∧ (d.1 : ℚ) ≤ (calcSearchRange ip1 ip2 L R 2).max.x
        ∧ (calcSearchRange ip1 ip2 L R 2).min.y ≤ d.2
        ∧ (d.2 : ℚ) ≤ (calcSearchRange ip1 ip2 L R 2).max.y)
    ∧ ((∀ p ∈ List.zip ip1 ip2,
          (L.mulVec ⟨p.1.x, p.1.y, 1⟩).z ≠ 0 ∧ (R.mulVec ⟨p.2.x, p.2.y, 1⟩).z ≠ 0) →
        diffList (transPoints L R ip1 ip2)
          = (specOffsets L R ip1 ip2).map fun o => (truncToInt o.x, truncToInt o.y)) := by
  have hne : ip1 ≠ [] := by
    intro h
    have := check_homography_matrix_true_ne_nil _ _ _ _ _ _ hchk
    simp [h, iplist_to_vectorlist] at this
  have hcond : calcAverageDeltaY_ip ip1 ip2 ≠ -1 ∨ calcAverageDeltaY_ip ip1 ip2 ≥ 3 := by
    left
    intro h
    have := calcAverageDeltaY_ip_nonneg ip1 ip2 hne
    rw [h] at this
    norm_num at this
  obtain ⟨⟨b1, b2, b3, b4⟩, ball⟩ :=
    foldl_update_bounds (diffList (transPoints L R ip1 ip2)) ⟨0, 0, 0, 0⟩
  obtain ⟨a1, a2, a3, a4⟩ :=
    foldl_update_attained (diffList (transPoints L R ip1 ip2)) ⟨0, 0, 0, 0⟩
  obtain ⟨k1, k2, k3, k4⟩ := calcSearchRange_corners ip1 ip2 L R 2
  rw [k1, k2, k3, k4]
  generalize List.foldl DiffBounds.update ⟨0, 0, 0, 0⟩ (diffList (transPoints L R ip1 ip2))
    = b at b1 b2 b3 b4 ball a1 a2 a3 a4
  simp only at b1 b2 b3 b4 a1 a2 a3 a4
  have e1 : (b.minDiffX : ℚ) ≤ 0 := by exact_mod_cast b1
  have e2 : (0 : ℚ) ≤ b.maxDiffX := by exact_mod_cast b2
  have e3 : (b.minDiffY : ℚ) ≤ 0 := by exact_mod_cast b3
  have e4 : (0 : ℚ) ≤ b.maxDiffY := by exact_mod_cast b4
  refine ⟨?_, ?_, ?_, ?_, ?_, diffList_transPoints L R ip1 ip2⟩
  rotate_left 4
  · intro d hd
    obtain ⟨c1, c2, c3, c4⟩ := ball d hd
    have f1 : (b.minDiffX : ℚ) ≤ d.1 := by exact_mod_cast c1
    have f2 : (d.1 : ℚ) ≤ b.maxDiffX := by exact_mod_cast c2
    have f3 : (b.minDiffY : ℚ) ≤ d.2 := by exact_mod_cast c3
    have f4 : (d.2 : ℚ) ≤ b.maxDiffY := by exact_mod_cast c4
    exact ⟨by linarith, by linarith, by linarith, by linarith⟩
  · unfold piecewiseAlignment_affineepipolar
    simp only
    rw [if_pos hcond]
    simp [hfit, hchk]
  · intro d hd
    obtain ⟨c1, c2, c3, c4⟩ := ball d hd
    have f1 : (b.minDiffX : ℚ) ≤ d.1 := by exact_mod_cast c1
    have f2 : (d.1 : ℚ) ≤ b.maxDiffX := by exact_mod_cast c2
    have f3 : (b.minDiffY : ℚ) ≤ d.2 := by exact_mod_cast c3
    have f4 : (d.2 : ℚ) ≤ b.maxDiffY := by exact_mod_cast c4
    exact ⟨by linarith, by linarith, by linarith, by linarith⟩
  · exact ⟨by linarith, by linarith, by linarith, by linarith⟩
  · refine ⟨?_, ?_, ?_, ?_⟩
    · rcases a1 with h | ⟨d, hd, h⟩
      · left; rw [h]; simp
      · right; exact ⟨d, hd, by rw [h]⟩
    · rcases a2 with h | ⟨d, hd, h⟩
      · left; rw [h]; simp
      · right; exact ⟨d, hd, by rw [h]⟩
    · rcases a3 with h | ⟨d, hd, h⟩
      · left; rw [h]; simp
      · right; exact ⟨d, hd, by rw [h]⟩
    · rcases a4 with h | ⟨d, hd, h⟩
      · left; rw [h]; simp
      · right; exact ⟨d, hd, by rw [h]⟩

/-- C8 (witness): the success path on `shiftedLeft`/`shiftedRightHalf`. -/
theorem C8_success_range_is_truncated_offset_bbox_witness :
    piecewiseAlignment_affineepipolar fitShiftUp shiftedLeft shiftedRightHalf originTile
        ⟨64, 64⟩ ⟨64, 64⟩ identity_matrix identity_matrix unitRange
      = ⟨calcSearchRange shiftedLeft shiftedRightHalf identity_matrix shiftUp 2, ⟨64, 63⟩,
          identity_matrix, shiftUp⟩ :=
  (C8_success_range_is_truncated_offset_bbox fitShiftUp shiftedLeft shiftedRightHalf
    originTile ⟨64, 64⟩ ⟨64, 64⟩ identity_matrix identity_matrix unitRange ⟨64, 63⟩
    identity_matrix shiftUp rfl
    (by rw [check_shiftedRightHalf.1]; exact check_shiftedRightHalf.2)).1

/-! ## C9: the spread-field sanity check of `prerasterize` -/

/-- C9 (evaluation of the code where it departs from the claim).  A 10x20 spread field
against a 10x30 seed disparity (rows differ), and a 10x20 spread field against a 15x20 seed
disparity (columns differ), both pass the check without `ArgumentErr`; only a spread field
that differs in both dimensions is refused. -/
theorem C9_one_dimension_mismatch_not_raised :
    prerasterize_spread_check 10 20 10 30 = Except.ok true
    ∧ prerasterize_spread_check 10 20 15 20 = Except.ok true
    ∧ prerasterize_spread_check 10 20 15 30
        = Except.error
            (.ArgumentErr "stereo_corr: D_sub and D_sub_spread must have equal sizes.\n") := by
  refine ⟨?_, ?_, ?_⟩ <;> rfl

/-! ## C10: scaling the search range to full resolution -/

/-- C10.  For positive upscale factors `u`, the full-resolution range has minimum
`floor(m*u)` and maximum `ceil(M*u)` componentwise, where `m = floor(min) - 1` and
`M = floor(max) + 2` are the corners of the seed-resolution range grown to integers and
expanded by 1; hence for every offset `d` inside the seed-resolution range the scaled
offset `u*d` lies inside the full-resolution range. -/
theorem C10_scaled_range_contains_scaled_offsets (r : BBox2f) (u : Vector2)
    (hx : 0 < u.x) (hy : 0 < u.y) :
    ((grow_bbox_to_int r).expand 1
        = ⟨⟨(⌊r.min.x⌋ : ℚ) - 1, (⌊r.min.y⌋ : ℚ) - 1⟩, ⟨(⌊r.max.x⌋ : ℚ) + 2, (⌊r.max.y⌋ : ℚ) + 2⟩⟩)
    ∧ (prerasterize_scale_range r u).min.x = (⌊((⌊r.min.x⌋ : ℚ) - 1) * u.x⌋ : ℚ)
    ∧ (prerasterize_scale_range r u).min.y = (⌊((⌊r.min.y⌋ : ℚ) - 1) * u.y⌋ : ℚ)
    ∧ (prerasterize_scale_range r u).max.x = (⌈((⌊r.max.x⌋ : ℚ) + 2) * u.x⌉ : ℚ)
    ∧ (prerasterize_scale_range r u).max.y = (⌈((⌊r.max.y⌋ : ℚ) + 2) * u.y⌉ : ℚ)
    ∧ ∀ d : Vector2, r.min.x ≤ d.x → d.x ≤ r.max.x → r.min.y ≤ d.y → d.y ≤ r.max.y →
        (prerasterize_scale_range r u).min.x ≤ u.x * d.x
        ∧ u.x * d.x < (prerasterize_scale_range r u).max.x
        ∧ (prerasterize_scale_range r u).min.y ≤ u.y * d.y
        ∧ u.y * d.y < (prerasterize_scale_range r u).max.y := by
  have hg : (grow_bbox_to_int r).expand 1
      = ⟨⟨(⌊r.min.x⌋ : ℚ) - 1, (⌊r.min.y⌋ : ℚ) - 1⟩,
          ⟨(⌊r.max.x⌋ : ℚ) + 2, (⌊r.max.y⌋ : ℚ) + 2⟩⟩ := by
    simp only [grow_bbox_to_int, BBox2f.expand, Int.cast_add, Int.cast_one]
    norm_num [add_assoc]
  refine ⟨hg, ?_, ?_, ?_, ?_, ?_⟩
  · simp only [prerasterize_scale_range, hg]
  · simp only [prerasterize_scale_range, hg]
  · simp only [prerasterize_scale_range, hg]
  · simp only [prerasterize_scale_range, hg]
  · intro d h1 h2 h3 h4
    simp only [prerasterize_scale_range, hg]
    refine ⟨?_, ?_, ?_, ?_⟩
    · have a := Int.floor_le (((⌊r.min.x⌋ : ℚ) - 1) * u.x)
      have b := Int.floor_le r.min.x
      have c : ((⌊r.min.x⌋ : ℚ) - 1) * u.x ≤ d.x * u.x :=
        mul_le_mul_of_nonneg_right (by linarith) hx.le
      linarith
    · have a := Int.le_ceil (((⌊r.max.x⌋ : ℚ) + 2) * u.x)
      have b := Int.lt_floor_add_one r.max.x
      have c : d.x * u.x < ((⌊r.max.x⌋ : ℚ) + 2) * u.x :=
        mul_lt_mul_of_pos_right (by linarith) hx
      linarith
    · have a := Int.floor_le (((⌊r.min.y⌋ : ℚ) - 1) * u.y)
      have b := Int.floor_le r.min.y
      have c : ((⌊r.min.y⌋ : ℚ) - 1) * u.y ≤ d.y * u.y :=
        mul_le_mul_of_nonneg_right (by linarith) hy.le
      linarith
    · have a := Int.le_ceil (((⌊r.max.y⌋ : ℚ) + 2) * u.y)
      have b := Int.lt_floor_add_one r.max.y
      have c : d.y * u.y < ((⌊r.max.y⌋ : ℚ) + 2) * u.y :=
        mul_lt_mul_of_pos_right (by linarith) hy
      linarith

/-- C10 (witness): the unit range `[-1, 1] x [-1, 1]` scaled by the factors `(4, 4)` has
minimum `floor((-1 - 1) * 4) = -8` and maximum `ceil((1 + 2) * 4) = 12` in `x`. -/
theorem C10_scaled_range_contains_scaled_offsets_witness :
    (prerasterize_scale_range unitRange ⟨4, 4⟩).min.x = -8
    ∧ (prerasterize_scale_range unitRange ⟨4, 4⟩).max.x = 12 := by
  obtain ⟨-, h1, -, h2, -, -⟩ :=
    C10_scaled_range_contains_scaled_offsets unitRange ⟨4, 4⟩ (by norm_num) (by norm_num)
  constructor
  · rw [h1]
    have : ((⌊unitRange.min.x⌋ : ℚ) - 1) * 4 = ((-8 : Int) : ℚ) := by norm_num [unitRange]
    simp only [this, Int.floor_intCast]
    norm_num
  · rw [h2]
    have : ((⌊unitRange.max.x⌋ : ℚ) + 2) * 4 = ((12 : Int) : ℚ) := by norm_num [unitRange]
    simp only [this, Int.ceil_intCast]
    norm_num

/-! ## Auxiliary lemmas for the seed stage -/

theorem truncToInt_of_nonneg (q : ℚ) (h : 0 ≤ q) : truncToInt q = ⌊q⌋ := by
  simp [truncToInt, h]

/-- Once the search range is derived, `lowres_correlation` completes with this outcome. -/
theorem lowres_correlation_of_derived (s : StereoSettings)
    (detected : Except VwException BBox2i) (dsub_opens local_hom_reads : Bool)
    (downsample_scale : Vector2) (d_sub : Option (List PixelMaskVector2f))
    (derived : BBox2i) (hd : lowres_derived_search_range s detected = .ok derived) :
    lowres_correlation s detected dsub_opens local_hom_reads downsample_scale d_sub
      = .ok ⟨lowres_apply_limit derived s.search_range_limit,
          if lowres_rebuild s dsub_opens then
            produce_lowres_disparity s (lowres_apply_limit derived s.search_range_limit)
              downsample_scale d_sub
          else lowres_apply_limit derived s.search_range_limit,
          lowres_rebuild s dsub_opens,
          if s.seed_mode > 0 ∧ s.use_local_homography = true then !local_hom_reads
          else false⟩ := by
  simp only [lowres_correlation, hd]
  rfl

/-! ## C11: the user's search-range limit -/

/-- The range that `read_search_range_from_dsub` reads from the half-resolution seed
`halfResSeed` at the scale `(1/2, 1/2)`: the offsets `-6 .. 6` and `-1 .. 1` become
`[-12, 12) x [-2, 2)`. -/
theorem read_search_range_from_dsub_halfResSeed :
    read_search_range_from_dsub windowSettings
        (lowres_apply_limit windowSettings.search_range windowSettings.search_range_limit)
        ⟨1 / 2, 1 / 2⟩ (some halfResSeed)
      = ⟨⟨-12, -2⟩, ⟨12, 2⟩⟩ := by
  have h1 : get_disparity_range halfResSeed = ⟨⟨-6, -1⟩, ⟨6, 1⟩⟩ := by
    norm_num [get_disparity_range, halfResSeed]
  have t1 : truncToInt (-6 : ℚ) = -6 := by
    have : (-6 : ℚ) = ((-6 : Int) : ℚ) := by norm_num
    rw [truncToInt, if_neg (by norm_num), this, Int.ceil_intCast]
  have t2 : truncToInt (-1 : ℚ) = -1 := by
    have : (-1 : ℚ) = ((-1 : Int) : ℚ) := by norm_num
    rw [truncToInt, if_neg (by norm_num), this, Int.ceil_intCast]
  have t3 : truncToInt (6 : ℚ) = 6 := by
    have : (6 : ℚ) = ((6 : Int) : ℚ) := by norm_num
    rw [truncToInt, if_pos (by norm_num), this, Int.floor_intCast]
  have t4 : truncToInt (1 : ℚ) = 1 := by
    have : (1 : ℚ) = ((1 : Int) : ℚ) := by norm_num
    rw [truncToInt, if_pos (by norm_num), this, Int.floor_intCast]
  have f1 : ⌊((-6 : Int) : ℚ) / (1 / 2)⌋ = -12 := by
    have : ((-6 : Int) : ℚ) / (1 / 2) = ((-12 : Int) : ℚ) := by norm_num
    rw [this, Int.floor_intCast]
  have f2 : ⌊((-1 : Int) : ℚ) / (1 / 2)⌋ = -2 := by
    have : ((-1 : Int) : ℚ) / (1 / 2) = ((-2 : Int) : ℚ) := by norm_num
    rw [this, Int.floor_intCast]
  have f3 : ⌈((6 : Int) : ℚ) / (1 / 2)⌉ = 12 := by
    have : ((6 : Int) : ℚ) / (1 / 2) = ((12 : Int) : ℚ) := by norm_num
    rw [this, Int.ceil_intCast]
  have f4 : ⌈((1 : Int) : ℚ) / (1 / 2)⌉ = 2 := by
    have : ((1 : Int) : ℚ) / (1 / 2) = ((2 : Int) : ℚ) := by norm_num
    rw [this, Int.ceil_intCast]
  have hs : ¬ windowSettings.seed_mode = 0 := by decide
  simp only [read_search_range_from_dsub, if_neg hs, h1, t1, t2, t3, t4, f1, f2, f3, f4]

/-- One axis of the seed box: for a tile `[a, b)` inside an image of `c` pixels over a seed
of `n` pixels, the seed index of every tile pixel lies between the cropped bounds, which
lie inside `[0, n]`. -/
theorem seed_axis (a b c n x : Int) (hc : 0 < c) (hn : 0 < n) (ha : 0 ≤ a) (hb : b ≤ c)
    (hax : a ≤ x) (hxb : x < b) :
    (if truncToInt ((a : ℚ) / ((c : ℚ) / n)) - 1 < 0 then 0
        else truncToInt ((a : ℚ) / ((c : ℚ) / n)) - 1) ≤ ⌊(x : ℚ) / ((c : ℚ) / n)⌋
    ∧ ⌊(x : ℚ) / ((c : ℚ) / n)⌋
        < (if truncToInt ((b : ℚ) / ((c : ℚ) / n)) + 1 > 0 + n then 0 + n
            else truncToInt ((b : ℚ) / ((c : ℚ) / n)) + 1)
    ∧ 0 ≤ (if truncToInt ((a : ℚ) / ((c : ℚ) / n)) - 1 < 0 then 0
        else truncToInt ((a : ℚ) / ((c : ℚ) / n)) - 1)
    ∧ (if truncToInt ((b : ℚ) / ((c : ℚ) / n)) + 1 > 0 + n then 0 + n
            else truncToInt ((b : ℚ) / ((c : ℚ) / n)) + 1) ≤ n := by
  have hu : (0 : ℚ) < (c : ℚ) / n := by positivity
  have hcq : (0 : ℚ) < c := by exact_mod_cast hc
  have hnq : (0 : ℚ) < n := by exact_mod_cast hn
  have ha0 : (0 : ℚ) ≤ (a : ℚ) / ((c : ℚ) / n) :=
    div_nonneg (by exact_mod_cast ha) hu.le
  have hb0 : (0 : ℚ) ≤ (b : ℚ) / ((c : ℚ) / n) :=
    div_nonneg (by exact_mod_cast (by omega : (0 : Int) ≤ b)) hu.le
  rw [truncToInt_of_nonneg _ ha0, truncToInt_of_nonneg _ hb0]
  have hax' : (a : ℚ) / ((c : ℚ) / n) ≤ (x : ℚ) / ((c : ℚ) / n) :=
    div_le_div_of_nonneg_right (by exact_mod_cast hax) hu.le
  have hxb' : (x : ℚ) / ((c : ℚ) / n) ≤ (b : ℚ) / ((c : ℚ) / n) :=
    div_le_div_of_nonneg_right (by exact_mod_cast hxb.le) hu.le
  have hxn : (x : ℚ) / ((c : ℚ) / n) < n := by
    rw [div_lt_iff₀ hu]
    have : (x : ℚ) < c := by exact_mod_cast (by omega : x < c)
    have e : (n : ℚ) * ((c : ℚ) / n) = c := by field_simp
    rw [e]; exact this
  have f1 : ⌊(a : ℚ) / ((c : ℚ) / n)⌋ ≤ ⌊(x : ℚ) / ((c : ℚ) / n)⌋ := Int.floor_mono hax'
  have f2 : ⌊(x : ℚ) / ((c : ℚ) / n)⌋ ≤ ⌊(b : ℚ) / ((c : ℚ) / n)⌋ := Int.floor_mono hxb'
  have f3 : ⌊(x : ℚ) / ((c : ℚ) / n)⌋ < n := by
    rw [Int.floor_lt]; exact hxn
  have f4 : 0 ≤ ⌊(x : ℚ) / ((c : ℚ) / n)⌋ := by
    apply Int.floor_nonneg.mpr
    exact le_trans ha0 hax'
  refine ⟨?_, ?_, ?_, ?_⟩ <;> split_ifs <;> omega

/-- C12.  For a tile `bbox` inside the full-resolution image and every pixel `(x, y)` of
the tile, the seed pixel `(floor(x/u_x), floor(y/u_y))` lies inside the seed box computed
by `prerasterize`, and that box lies inside the bounds of the seed disparity field. -/
theorem C12_seed_pixel_in_seed_box (bbox : BBox2i) (cols rows sub_cols sub_rows x y : Int)
    (hc : 0 < cols) (hr : 0 < rows) (hsc : 0 < sub_cols) (hsr : 0 < sub_rows)
    (hmin : 0 ≤ bbox.min.x ∧ 0 ≤ bbox.min.y) (hmax : bbox.max.x ≤ cols ∧ bbox.max.y ≤ rows)
    (hp : bbox.contains ⟨x, y⟩) :
    (seed_bbox bbox (m_upscale_factor cols rows sub_cols sub_rows) sub_cols sub_rows).contains
        ⟨⌊(x : ℚ) / (m_upscale_factor cols rows sub_cols sub_rows).x⌋,
         ⌊(y : ℚ) / (m_upscale_factor cols rows sub_cols sub_rows).y⌋⟩
    ∧ 0 ≤ (seed_bbox bbox (m_upscale_factor cols rows sub_cols sub_rows)
            sub_cols sub_rows).min.x
    ∧ 0 ≤ (seed_bbox bbox (m_upscale_factor cols rows sub_cols sub_rows)
            sub_cols sub_rows).min.y
    ∧ (seed_bbox bbox (m_upscale_factor cols rows sub_cols sub_rows)
            sub_cols sub_rows).max.x ≤ sub_cols
    ∧ (seed_bbox bbox (m_upscale_factor cols rows sub_cols sub_rows)
            sub_cols sub_rows).max.y ≤ sub_rows := by
  obtain ⟨px1, px2, py1, py2⟩ := hp
  simp only at px1 px2 py1 py2
  obtain ⟨x1, x2, x3, x4⟩ :=
    seed_axis bbox.min.x bbox.max.x cols sub_cols x hc hsc hmin.1 hmax.1 px1 px2
  obtain ⟨y1, y2, y3, y4⟩ :=
    seed_axis bbox.min.y bbox.max.y rows sub_rows y hr hsr hmin.2 hmax.2 py1 py2
  simp only [seed_bbox, m_upscale_factor, BBox2i.contains, BBox2i.crop, BBox2i.expand,
    bounding_box, BBox2i.ofMinSize]
  exact ⟨⟨x1, x2, y1, y2⟩, x3, y3, x4, y4⟩

/-- C12 (witness): the tile `[64,128) x [64,128)` of a 256x256 image over a 32x32 seed,
at its pixel `(127, 64)`. -/
theorem C12_seed_pixel_in_seed_box_witness :
    (seed_bbox interiorTile (m_upscale_factor 256 256 32 32) 32 32).contains
        ⟨⌊((127 : Int) : ℚ) / (m_upscale_factor 256 256 32 32).x⌋,
         ⌊((64 : Int) : ℚ) / (m_upscale_factor 256 256 32 32).y⌋⟩ :=
  (C12_seed_pixel_in_seed_box interiorTile 256 256 32 32 127 64 (by decide) (by decide)
    (by decide) (by decide) (by decide) (by decide)
    (by simp [BBox2i.contains, interiorTile])).1

/-! ## C13: round trip through the inverse-warp step -/

/-- C13 (counterexample to the claim as stated).  The left transform `diag(1, 2, 1)` is
invertible and passes the determinant gate; with zero Matcher disparity and a valid mask,
the tile pixel `(0, 10)` is emitted valid with disparity `(0, 10)`, so its predicted
position `(0, 20)` is ten pixels away from its own coordinate. -/
theorem C13_round_trip_leaves_pixel :
    det2 stretchY = 2
    ∧ stereo_result_corrected stretchY (fun _ _ => ⟨0, 0⟩) (fun _ _ => 1) 0 10
        = ⟨⟨0, 10⟩, true⟩
    ∧ predictedPosition 0 10
        (stereo_result_corrected stretchY (fun _ _ => ⟨0, 0⟩) (fun _ _ => 1) 0 10) = ⟨0, 20⟩
    ∧ ¬ withinOnePixel
        (predictedPosition 0 10
          (stereo_result_corrected stretchY (fun _ _ => ⟨0, 0⟩) (fun _ _ => 1) 0 10))
        ⟨0, 10⟩ := by
  have h : stereo_result_corrected stretchY (fun _ _ => ⟨0, 0⟩) (fun _ _ => 1) 0 10
      = ⟨⟨0, 10⟩, true⟩ := by
    norm_num [stereo_result_corrected, HomographyTransform.forward, stretchY]
  refine ⟨by norm_num [det2, stretchY], h, ?_, ?_⟩
  · rw [h]; norm_num [predictedPosition]
  · rw [h]; norm_num [predictedPosition, withinOnePixel]

/-- C13 (amended).  If the inverse-warped Matcher disparity is zero everywhere, then for
every left transform and every tile pixel the predicted position (pixel coordinate plus
emitted disparity) is the image under the left transform of the coordinate `(i, j)` that
the loop forward-maps; it is within one pixel of `(i, j)` exactly when the transform moves
that coordinate by at most one pixel, and it is `(i, j)` itself for the identity. -/
theorem C13_round_trip_is_forward_map (H_L : Matrix3) (stereo_result_inv : Int → Int → Vector2)
    (mask : Int → Int → Nat) (i j : Int) (h0 : ∀ x y, stereo_result_inv x y = ⟨0, 0⟩) :
    predictedPosition i j (stereo_result_corrected H_L stereo_result_inv mask i j)
      = HomographyTransform.forward H_L ⟨i, j⟩
    ∧ (withinOnePixel
          (predictedPosition i j (stereo_result_corrected H_L stereo_result_inv mask i j))
          ⟨i, j⟩
        ↔ withinOnePixel (HomographyTransform.forward H_L ⟨i, j⟩) ⟨i, j⟩)
    ∧ predictedPosition i j
        (stereo_result_corrected identity_matrix stereo_result_inv mask i j) = ⟨i, j⟩ := by
  have key : ∀ H : Matrix3,
      predictedPosition i j (stereo_result_corrected H stereo_result_inv mask i j)
        = HomographyTransform.forward H ⟨i, j⟩ := by
    intro H
    simp only [predictedPosition, stereo_result_corrected, h0]
    generalize HomographyTransform.forward H ⟨i, j⟩ = v
    cases v
    simp
  refine ⟨key H_L, by rw [key H_L], ?_⟩
  rw [key identity_matrix]
  simp [HomographyTransform.forward, identity_matrix]

/-- C13 (witness): zero disparity under `diag(1, 2, 1)` at the tile pixel `(0, 10)`. -/
theorem C13_round_trip_is_forward_map_witness :
    predictedPosition 0 10
        (stereo_result_corrected stretchY (fun _ _ => ⟨0, 0⟩) (fun _ _ => 1) 0 10)
      = HomographyTransform.forward stretchY ⟨(0 : Int), (10 : Int)⟩ :=
  (C13_round_trip_is_forward_map stretchY (fun _ _ => ⟨0, 0⟩) (fun _ _ => 1) 0 10
    (fun _ _ => rfl)).1

/-! ## C14: the histogram limits of `approximate_search_range` -/

theorem DBL_MIN_pos : 0 < DBL_MIN := by
  unfold DBL_MIN
  positivity

theorem DBL_MAX_pos : 0 < DBL_MAX := by
  unfold DBL_MAX
  norm_num

/-- C14 (evaluation of the code where it departs from the claim).  For the single
correspondence `(10, 10) -> (5, 7)` at scale 1 the offsets are `dx = -5`, `dy = -3`; the
lower limits are the observed minima, but the upper limits keep their initial value
`numeric_limits<double>::min() = 2^-1022 > 0` instead of the observed maxima `-5`, `-3`. -/
theorem C14_upper_limit_stays_positive :
    offsetStats 1 OffsetStats.init [⟨10, 10⟩] [⟨5, 7⟩]
      = ⟨[-5], [-3], -5, -3, DBL_MIN, DBL_MIN⟩
    ∧ (offsetStats 1 OffsetStats.init [⟨10, 10⟩] [⟨5, 7⟩]).max_dx ≠ -5
    ∧ (offsetStats 1 OffsetStats.init [⟨10, 10⟩] [⟨5, 7⟩]).max_dy ≠ -3 := by
  have hmin := DBL_MIN_pos
  have hmax := DBL_MAX_pos
  have h : offsetStats 1 OffsetStats.init [⟨10, 10⟩] [⟨5, 7⟩]
      = ⟨[-5], [-3], -5, -3, DBL_MIN, DBL_MIN⟩ := by
    have a1 : (5 : ℚ) - 10 < DBL_MAX := by linarith
    have a2 : (7 : ℚ) - 10 < DBL_MAX := by linarith
    have a3 : ¬ ((5 : ℚ) - 10 > DBL_MIN) := by intro h; linarith
    have a4 : ¬ ((7 : ℚ) - 10 > DBL_MIN) := by intro h; linarith
    simp only [offsetStats, OffsetStats.step, OffsetStats.init, one_mul, if_pos a1, if_pos a2,
      if_neg a3, if_neg a4, List.nil_append]
    norm_num
  refine ⟨h, ?_, ?_⟩
  · rw [h]; simp only; intro e; linarith
  · rw [h]; simp only; intro e; linarith

/-! ## C15: the inflation of the percentile window -/

/-- C15.  The window inflated by `approximate_search_range` has the same center as the
tight window `(search_min, search_max)` and, on each axis, exactly twice its extent; hence
it contains the tight window whenever `search_min <= search_max` componentwise. -/
theorem C15_inflation_doubles_extent (search_min search_max : Vector2) :
    (((inflate_search_window search_min search_max).2.x
          + (inflate_search_window search_min search_max).1.x) / 2
        = (search_max.x + search_min.x) / 2
      ∧ ((inflate_search_window search_min search_max).2.y
          + (inflate_search_window search_min search_max).1.y) / 2
        = (search_max.y + search_min.y) / 2)
    ∧ ((inflate_search_window search_min search_max).2.x
          - (inflate_search_window search_min search_max).1.x
        = 2 * (search_max.x - search_min.x)
      ∧ (inflate_search_window search_min search_max).2.y
          - (inflate_search_window search_min search_max).1.y
        = 2 * (search_max.y - search_min.y))
    ∧ (search_min.x ≤ search_max.x → search_min.y ≤ search_max.y →
        (inflate_search_window search_min search_max).1.x ≤ search_min.x
        ∧ search_max.x ≤ (inflate_search_window search_min search_max).2.x
        ∧ (inflate_search_window search_min search_max).1.y ≤ search_min.y
        ∧ search_max.y ≤ (inflate_search_window search_min search_max).2.y) := by
  simp only [inflate_search_window]
  refine ⟨⟨by ring, by ring⟩, ⟨by ring, by ring⟩, ?_⟩
  intro hx hy
  refine ⟨?_, ?_, ?_, ?_⟩ <;> linarith

/-- C15 (witness): the tight window `[-1, 1] x [-1, 1]` is contained in its inflation. -/
theorem C15_inflation_doubles_extent_witness :
    (inflate_search_window unitRange.min unitRange.max).1.x ≤ unitRange.min.x
    ∧ unitRange.max.x ≤ (inflate_search_window unitRange.min unitRange.max).2.x
    ∧ (inflate_search_window unitRange.min unitRange.max).1.y ≤ unitRange.min.y
    ∧ unitRange.max.y ≤ (inflate_search_window unitRange.min unitRange.max).2.y :=
  (C15_inflation_doubles_extent unitRange.min unitRange.max).2.2
    (by norm_num [unitRange]) (by norm_num [unitRange])

/-! ## Auxiliary lemmas for `histogram` -/

theorem incrementAt_length (l : List ℚ) (i : Nat) : (incrementAt l i).length = l.length := by
  induction l generalizing i with
  | nil => simp [incrementAt]
  | cons h t ih =>
    cases i with
    | zero => simp [incrementAt]
    | succ n => simp [incrementAt, ih]

theorem incrementAt_sum (l : List ℚ) (i : Nat) (hi : i < l.length) :
    (incrementAt l i).sum = l.sum + 1 := by
  induction l generalizing i with
  | nil => simp at hi
  | cons h t ih =>
    cases i with
    | zero => simp [incrementAt]; ring
    | succ n =>
      have hn : n < t.length := by simpa using hi
      simp [incrementAt, ih n hn]; ring

/-- The bin index of `histogram` is saturated into `[0, num_bins - 1]`. -/
theorem histogram_bin_range (num_bins : Int) (min_val max_val v : ℚ) (hn : 0 < num_bins) :
    0 ≤ histogram_bin num_bins min_val max_val v
    ∧ histogram_bin num_bins min_val max_val v ≤ num_bins - 1 := by
  simp only [histogram_bin]
  constructor <;> split_ifs <;> omega

theorem foldl_incrementAt (num_bins : Int) (min_val max_val : ℚ) (hn : 0 < num_bins)
    (values : List ℚ) (hist : List ℚ) (hlen : hist.length = num_bins.toNat) :
    (values.foldl
        (fun hist val => incrementAt hist (histogram_bin num_bins min_val max_val val).toNat)
        hist).length = num_bins.toNat
    ∧ (values.foldl
        (fun hist val => incrementAt hist (histogram_bin num_bins min_val max_val val).toNat)
        hist).sum = hist.sum + values.length := by
  induction values generalizing hist with
  | nil => simp [hlen]
  | cons v vs ih =>
    obtain ⟨b0, b1⟩ := histogram_bin_range num_bins min_val max_val v hn
    have hi : (histogram_bin num_bins min_val max_val v).toNat < hist.length := by omega
    have hlen' : (incrementAt hist (histogram_bin num_bins min_val max_val v).toNat).length
        = num_bins.toNat := by rw [incrementAt_length, hlen]
    obtain ⟨i1, i2⟩ := ih _ hlen'
    simp only [List.foldl_cons]
    refine ⟨i1, ?_⟩
    rw [i2, incrementAt_sum _ _ hi]
    simp only [List.length_cons, Nat.cast_add, Nat.cast_one]
    ring

/-- The statement `++(hist[bin])` adds one to the entry `bin` and leaves the others. -/
theorem incrementAt_getElem? (l : List ℚ) (i k : Nat) :
    (incrementAt l i)[k]? = if k = i then l[k]?.map (fun c => c + 1) else l[k]? := by
  induction l generalizing i k with
  | nil => simp [incrementAt]
  | cons h t ih =>
    cases i with
    | zero =>
      cases k with
      | zero => simp [incrementAt]
      | succ m => simp [incrementAt]
    | succ n =>
      cases k with
      | zero => simp [incrementAt]
      | succ m => simp [incrementAt, ih n m]

/-- After the counting loop, the entry `k` has grown by the number of values whose bin
is `k`. -/
theorem foldl_incrementAt_getElem? (f : ℚ → Nat) (values : List ℚ) (hist : List ℚ) (k : Nat) :
    (values.foldl (fun hist val => incrementAt hist (f val)) hist)[k]?
      = hist[k]?.map (fun c => c + ((values.countP fun v => decide (f v = k) : Nat) : ℚ)) := by
  induction values generalizing hist with
  | nil => simp
  | cons v vs ih =>
    rw [List.foldl_cons, ih, incrementAt_getElem?, List.countP_cons]
    by_cases hk : f v = k
    · have hk2 : k = f v := hk.symm
      simp only [hk, decide_True, if_true, Option.map_map]
      congr 1
      funext c
      simp only [Function.comp]
      push_cast
      ring
    · have hk2 : ¬ k = f v := fun h => hk h.symm
      simp [hk, hk2]

/-! ## C16: bin centers of `histogram` -/

/-- For a value inside `[min_val, max_val]` the bin index needs no saturation, and the
center of the bin is within one bin width of the value. -/
theorem histogram_bin_center (num_bins : Int) (min_val max_val v : ℚ) (hn : 0 < num_bins)
    (hlt : min_val < max_val) (h1 : min_val ≤ v) (h2 : v ≤ max_val) :
    0 ≤ histogram_bin num_bins min_val max_val v
    ∧ histogram_bin num_bins min_val max_val v ≤ num_bins - 1
    ∧ |histogram_center num_bins min_val max_val
          (histogram_bin num_bins min_val max_val v).toNat - v|
        ≤ (max_val - min_val) / num_bins := by
  have hr : 0 < max_val - min_val := by linarith
  have hnq : (0 : ℚ) < num_bins := by exact_mod_cast hn
  have hn1 : (0 : ℚ) ≤ (num_bins : ℚ) - 1 := by
    have : (1 : ℚ) ≤ num_bins := by exact_mod_cast hn
    linarith
  have ht0 : 0 ≤ (v - min_val) / (max_val - min_val) := div_nonneg (by linarith) hr.le
  have ht1 : (v - min_val) / (max_val - min_val) ≤ 1 := by
    rw [div_le_one hr]; linarith
  have hv : v = min_val + (v - min_val) / (max_val - min_val) * (max_val - min_val) := by
    field_simp
  generalize htdef : (v - min_val) / (max_val - min_val) = t at ht0 ht1 hv
  have hx0 : 0 ≤ ((num_bins : ℚ) - 1) * t := mul_nonneg hn1 ht0
  have hx1 : ((num_bins : ℚ) - 1) * t ≤ num_bins - 1 := by nlinarith
  have hround : cRound (((num_bins : ℚ) - 1) * t) = ⌊((num_bins : ℚ) - 1) * t + 1 / 2⌋ := by
    simp [cRound, hx0]
  have hb1 := Int.floor_le (((num_bins : ℚ) - 1) * t + 1 / 2)
  have hb2 := Int.lt_floor_add_one (((num_bins : ℚ) - 1) * t + 1 / 2)
  have hb0 : 0 ≤ ⌊((num_bins : ℚ) - 1) * t + 1 / 2⌋ := Int.floor_nonneg.mpr (by linarith)
  have hbn : ⌊((num_bins : ℚ) - 1) * t + 1 / 2⌋ < num_bins := by
    rw [Int.floor_lt]; linarith
  have hbin : histogram_bin num_bins min_val max_val v
      = ⌊((num_bins : ℚ) - 1) * t + 1 / 2⌋ := by
    simp only [histogram_bin, htdef]
    rw [hround]
    rw [if_neg (by omega), if_neg (by omega)]
  rw [hbin]
  generalize ⌊((num_bins : ℚ) - 1) * t + 1 / 2⌋ = b at hb0 hbn hb1 hb2
  refine ⟨hb0, by omega, ?_⟩
  have hcast : ((b.toNat : ℕ) : ℚ) = (b : ℚ) := by
    have := Int.toNat_of_nonneg hb0
    exact_mod_cast this
  simp only [histogram_center, hcast]
  have hw : 0 < (max_val - min_val) / num_bins := div_pos hr hnq
  have hrange : max_val - min_val = (max_val - min_val) / num_bins * num_bins := by
    field_simp
  generalize (max_val - min_val) / num_bins = w at hw hrange
  rw [hrange] at hv
  have e1 : (b : ℚ) + 1 / 2 - num_bins * t ≤ 1 := by linarith
  have e2 : -1 ≤ (b : ℚ) + 1 / 2 - num_bins * t := by linarith
  have hdiff : min_val + b * w + w / 2 - v = w * ((b : ℚ) + 1 / 2 - num_bins * t) := by
    rw [hv]; ring
  rw [hdiff, abs_le]
  constructor
  · nlinarith
  · nlinarith

/-- C16.  For `num_bins > 0` and `min_val < max_val`, `histogram` returns `num_bins`
counts and `num_bins` bin centers; the count of bin `k` is the number of the values whose
bin index is `k`; and every value `v` in `[min_val, max_val]` has a bin index in
`[0, num_bins - 1]`, the center of that bin lies within one bin width
`(max_val - min_val)/num_bins` of `v`, and when `v` is one of the values it is counted
there (the count of that bin is at least 1). -/
theorem C16_bin_center_within_one_width (values : List ℚ) (num_bins : Int)
    (min_val max_val : ℚ) (hn : 0 < num_bins) (hlt : min_val < max_val) :
    ∃ hist centers, histogram values num_bins min_val max_val = .ok (hist, centers)
      ∧ hist.length = num_bins.toNat
      ∧ centers.length = num_bins.toNat
      ∧ (∀ k, k < num_bins.toNat →
          hist[k]? = some ((values.countP fun w =>
              decide ((histogram_bin num_bins min_val max_val w).toNat = k) : Nat) : ℚ))
      ∧ ∀ v, min_val ≤ v → v ≤ max_val →
        0 ≤ histogram_bin num_bins min_val max_val v
        ∧ histogram_bin num_bins min_val max_val v ≤ num_bins - 1
        ∧ (∃ c, centers[(histogram_bin num_bins min_val max_val v).toNat]? = some c
            ∧ |c - v| ≤ (max_val - min_val) / num_bins)
        ∧ (v ∈ values →
            ∃ n : ℚ, hist[(histogram_bin num_bins min_val max_val v).toNat]? = some n
              ∧ 1 ≤ n) := by
  have hpos : ¬ ¬ (num_bins > 0) := not_not.mpr hn
  have hcount : ∀ k, k < num_bins.toNat →
      (values.foldl
          (fun hist val => incrementAt hist (histogram_bin num_bins min_val max_val val).toNat)
          (List.replicate num_bins.toNat 0))[k]?
        = some ((values.countP fun w =>
            decide ((histogram_bin num_bins min_val max_val w).toNat = k) : Nat) : ℚ) := by
    intro k hk
    rw [foldl_incrementAt_getElem?
      (fun val => (histogram_bin num_bins min_val max_val val).toNat) values _ k]
    simp [List.getElem?_replicate, hk]
  refine ⟨_, _, by simp only [histogram, if_neg hpos]; rfl, ?_, ?_, hcount, ?_⟩
  · exact (foldl_incrementAt num_bins min_val max_val hn values _ (by simp)).1
  · simp
  intro v h1 h2
  obtain ⟨b0, b1, bc⟩ := histogram_bin_center num_bins min_val max_val v hn hlt h1 h2
  have hlt' : (histogram_bin num_bins min_val max_val v).toNat < num_bins.toNat := by omega
  refine ⟨b0, b1, ⟨_, ?_, bc⟩, ?_⟩
  · simp [List.getElem?_map, List.getElem?_range hlt']
  · intro hv
    refine ⟨_, hcount _ hlt', ?_⟩
    have hc : 0 < values.countP fun w =>
        decide ((histogram_bin num_bins min_val max_val w).toNat
          = (histogram_bin num_bins min_val max_val v).toNat) :=
      List.countP_pos_iff.mpr ⟨v, hv, by simp⟩
    exact_mod_cast hc

/-- C16 (witness): ten bins over `[0, 10]` and the values 0 and 10; the value 10 falls in
the last bin, whose center 19/2 is half a bin width away and whose count is 1. -/
theorem C16_bin_center_within_one_width_witness :
    ∃ hist centers, histogram [0, 10] 10 0 10 = .ok (hist, centers)
      ∧ hist.length = (10 : Int).toNat
      ∧ centers.length = (10 : Int).toNat
      ∧ (∀ k, k < (10 : Int).toNat →
          hist[k]? = some ((([0, 10] : List ℚ).countP fun w =>
              decide ((histogram_bin 10 0 10 w).toNat = k) : Nat) : ℚ))
      ∧ ∀ v, (0 : ℚ) ≤ v → v ≤ 10 →
        0 ≤ histogram_bin 10 0 10 v
        ∧ histogram_bin 10 0 10 v ≤ 10 - 1
        ∧ (∃ c, centers[(histogram_bin 10 0 10 v).toNat]? = some c
            ∧ |c - v| ≤ (10 - 0) / (10 : Int))
        ∧ (v ∈ ([0, 10] : List ℚ) →
            ∃ n : ℚ, hist[(histogram_bin 10 0 10 v).toNat]? = some n ∧ 1 ≤ n) :=
  C16_bin_center_within_one_width [0, 10] 10 0 10 (by decide) (by norm_num)

/-! ## C17: no correspondence left after the prefilter -/

/-- C17.  When the elevation/lon-lat prefilter leaves zero correspondences
(`num_left == 0`), `approximate_search_range` raises `ArgumentErr` and returns no search
range. -/
theorem C17_no_matches_raises (get_histogram_percentile : List ℚ → ℚ → Nat) (ip_scale : ℚ)
    (filtered : FilteredMatches) (h : filtered.num_left = 0) :
    approximate_search_range get_histogram_percentile true ip_scale filtered
      = .error (.ArgumentErr "No IPs left after elevation filtering!")
    ∧ ∀ search_range,
        approximate_search_range get_histogram_percentile true ip_scale filtered
          ≠ .ok search_range := by
  have e : approximate_search_range get_histogram_percentile true ip_scale filtered
      = .error (.ArgumentErr "No IPs left after elevation filtering!") := by
    simp only [approximate_search_range, h]
    rfl
  refine ⟨e, ?_⟩
  intro r hr
  rw [e] at hr
  cases hr

/-- C17 (witness): a prefilter that leaves nothing. -/
theorem C17_no_matches_raises_witness :
    approximate_search_range (fun _ _ => 0) true 1 ⟨0, [], []⟩
      = .error (.ArgumentErr "No IPs left after elevation filtering!") :=
  (C17_no_matches_raises (fun _ _ => 0) 1 ⟨0, [], []⟩ rfl).1

/-! ## C18: `calcSearchRange` returns a well-formed box -/

/-- C18.  For every list of correspondences, every pair of matrices and every multiplier
`>= 0`, the box returned by `calcSearchRange` satisfies `min <= max` componentwise. -/
theorem C18_calcSearchRange_min_le_max (left_ip right_ip : List InterestPoint)
    (left_matrix right_matrix : Matrix3) (multi : ℚ) (hm : 0 ≤ multi) :
    (calcSearchRange left_ip right_ip left_matrix right_matrix multi).min.x
        ≤ (calcSearchRange left_ip right_ip left_matrix right_matrix multi).max.x
    ∧ (calcSearchRange left_ip right_ip left_matrix right_matrix multi).min.y
        ≤ (calcSearchRange left_ip right_ip left_matrix right_matrix multi).max.y := by
  obtain ⟨k1, k2, k3, k4⟩ :=
    calcSearchRange_corners left_ip right_ip left_matrix right_matrix multi
  obtain ⟨⟨b1, b2, b3, b4⟩, -⟩ :=
    foldl_update_bounds (diffList (transPoints left_matrix right_matrix left_ip right_ip))
      ⟨0, 0, 0, 0⟩
  rw [k1, k2, k3, k4]
  generalize List.foldl DiffBounds.update ⟨0, 0, 0, 0⟩
    (diffList (transPoints left_matrix right_matrix left_ip right_ip)) = b at b1 b2 b3 b4
  simp only at b1 b2 b3 b4
  have e1 : (b.minDiffX : ℚ) ≤ b.maxDiffX := by exact_mod_cast (by omega : b.minDiffX ≤ b.maxDiffX)
  have e2 : (b.minDiffY : ℚ) ≤ b.maxDiffY := by exact_mod_cast (by omega : b.minDiffY ≤ b.maxDiffY)
  exact ⟨mul_le_mul_of_nonneg_left e1 hm, mul_le_mul_of_nonneg_left e2 hm⟩

/-- C18 (witness): the matches `shiftedLeft`/`shiftedRightHalf` under the identity with
the multiplier 2. -/
theorem C18_calcSearchRange_min_le_max_witness :
    (calcSearchRange shiftedLeft shiftedRightHalf identity_matrix identity_matrix 2).min.x
        ≤ (calcSearchRange shiftedLeft shiftedRightHalf identity_matrix identity_matrix 2).max.x
    ∧ (calcSearchRange shiftedLeft shiftedRightHalf identity_matrix identity_matrix 2).min.y
        ≤ (calcSearchRange shiftedLeft shiftedRightHalf identity_matrix identity_matrix
            2).max.y :=
  C18_calcSearchRange_min_le_max shiftedLeft shiftedRightHalf identity_matrix identity_matrix 2
    (by norm_num)

/-! ## C19: the tile-size check of `stereo_correlation` -/

/-- C19 (counterexample to the claim as stated).  A window-correlation run
(`stereo_algorithm = 0`) with the unknown cost mode 9 raises `ArgumentErr` before anything
is written, although the algorithm is not semi-global; and a semi-global run with tile
size 256 on a 2048x2048 extent that is told to stop after the low-resolution disparity
returns without raising. -/
theorem C19_argument_error_is_not_only_tile_size :
    (¬ (unknownCostSettings.stereo_algorithm > CORRELATION_WINDOW)
      ∧ stereo_correlation unknownCostSettings (.ok ()) (.ok ()) (.ok ()) ⟨2048, 2048⟩ (.ok ())
          = .error (.ArgumentErr "Unknown value for cost-mode.\n"))
    ∧ (sgmLowResOnlySettings.stereo_algorithm > CORRELATION_WINDOW
      ∧ sgmLowResOnlySettings.corr_tile_size_ovr < max (2048 : Int) 2048
      ∧ stereo_correlation sgmLowResOnlySettings (.ok ()) (.ok ()) (.ok ()) ⟨2048, 2048⟩
          (.ok ()) = .ok .low_res_only) := by
  refine ⟨⟨by decide, rfl⟩, by decide, by decide, rfl⟩

/-- C19 (amended).  Once `stereo_correlation` reaches its tile-size check (the
low-resolution stage, the loading of the inputs and the set-up of the view completed,
`compute_low_res_disparity_only` is off and the cost mode is one of 0..4), it raises the
`ArgumentErr` of that check, before the disparity raster is written, if the algorithm is
semi-global and `corr_tile_size_ovr` is smaller than the larger dimension of the disparity
extent; otherwise it goes on to write the raster and ends as the writing ends. -/
theorem C19_tile_size_check (s : StereoSettings)
    (lowres load_inputs setup_view write_raster : Except VwException Unit)
    (image_size : Vector2i)
    (hlow : lowres = .ok ()) (hfull : s.compute_low_res_disparity_only = false)
    (hload : load_inputs = .ok ()) (hcost : 0 ≤ s.cost_mode ∧ s.cost_mode ≤ 4)
    (hsetup : setup_view = .ok ()) :
    ((s.stereo_algorithm > CORRELATION_WINDOW
          ∧ s.corr_tile_size_ovr < max image_size.x image_size.y) →
        stereo_correlation s lowres load_inputs setup_view image_size write_raster
          = .error sgmTileSizeErr)
    ∧ (¬ (s.stereo_algorithm > CORRELATION_WINDOW
          ∧ s.corr_tile_size_ovr < max image_size.x image_size.y) →
        stereo_correlation s lowres load_inputs setup_view image_size write_raster
          = write_raster.map fun _ => StereoOutcome.disparity_written) := by
  subst hlow hload hsetup
  obtain ⟨c0, c4⟩ := hcost
  have hc : ∃ c, get_cost_mode_value s.cost_mode = .ok c := by
    unfold get_cost_mode_value
    split_ifs with h0 h1 h2 h3 h4
    · exact ⟨_, rfl⟩
    · exact ⟨_, rfl⟩
    · exact ⟨_, rfl⟩
    · exact ⟨_, rfl⟩
    · exact ⟨_, rfl⟩
    · omega
  obtain ⟨c, hc⟩ := hc
  have hpre : ∀ k : Except VwException StereoOutcome,
      (do
        if !s.skip_low_res_disparity_comp || decide (s.seed_mode = 0) then
          (Except.ok () : Except VwException Unit)
        if s.compute_low_res_disparity_only then
          return .low_res_only
        (Except.ok () : Except VwException Unit)
        let _cost_mode ← get_cost_mode_value s.cost_mode
        (Except.ok () : Except VwException Unit)
        k) = k := by
    intro k
    rw [hfull, hc]
    by_cases hb : (!s.skip_low_res_disparity_comp || decide (s.seed_mode = 0)) = true
    · simp only [hb, if_true]
      rfl
    · simp only [hb]
      rfl
  constructor
  · rintro ⟨hs, ht⟩
    unfold stereo_correlation
    rw [hpre]
    simp [hs, ht]
    rfl
  · intro hn
    unfold stereo_correlation
    rw [hpre]
    by_cases hs : s.stereo_algorithm > CORRELATION_WINDOW
    · have ht : ¬ s.corr_tile_size_ovr < max image_size.x image_size.y := fun h => hn ⟨hs, h⟩
      simp [hs, ht]
      cases write_raster <;> rfl
    · simp [hs]
      cases write_raster <;> rfl

/-- C19 (witness): a semi-global run with tile size 256 on a 2048x2048 extent is refused
at the tile-size check. -/
theorem C19_tile_size_check_witness :
    stereo_correlation sgmSettings (.ok ()) (.ok ()) (.ok ()) ⟨2048, 2048⟩ (.ok ())
      = .error sgmTileSizeErr :=
  (C19_tile_size_check sgmSettings (.ok ()) (.ok ()) (.ok ()) (.ok ()) ⟨2048, 2048⟩
    rfl rfl rfl (by decide) rfl).1 (by decide)

/-! ## C20: reuse of the cached seed disparity -/

theorem foldl_push_pairs {α : Type} (a b : Nat → α) (indices : List Nat) (f1 f2 : List α) :
    indices.foldl (fun (acc : List α × List α) index => (acc.1 ++ [a index], acc.2 ++ [b index]))
        (f1, f2)
      = (f1 ++ indices.map a, f2 ++ indices.map b) := by
  induction indices generalizing f1 f2 with
  | nil => simp
  | cons i is ih => simp [ih, List.append_assoc]

/-- C21.  `homography_ip_matching1` returns false exactly when detection yields no
candidate on either side or the RANSAC block raises `RANSACErr`, and then the output lists
are as the caller passed them; otherwise it returns true and has appended to both lists
the candidates selected by the inlier indices, in the order of the indices, the k-th
appended left and right point coming from the same candidate pair. -/
theorem C21_matching_result (matched_ip1 matched_ip2 : List InterestPoint)
    (ransac : List Vector3 → List Vector3 → Option (List Nat))
    (final_ip1 final_ip2 : List InterestPoint) :
    ((homography_ip_matching1 matched_ip1 matched_ip2 ransac final_ip1 final_ip2).success
          = false
        ↔ (matched_ip1 = [] ∨ matched_ip2 = []
            ∨ ransac (iplist_to_vectorlist matched_ip2) (iplist_to_vectorlist matched_ip1)
                = none))
    ∧ ((homography_ip_matching1 matched_ip1 matched_ip2 ransac final_ip1 final_ip2).success
          = false →
        (homography_ip_matching1 matched_ip1 matched_ip2 ransac final_ip1 final_ip2).final_ip1
            = final_ip1
        ∧ (homography_ip_matching1 matched_ip1 matched_ip2 ransac final_ip1
            final_ip2).final_ip2 = final_ip2)
    ∧ (∀ indices, matched_ip1 ≠ [] → matched_ip2 ≠ [] →
        ransac (iplist_to_vectorlist matched_ip2) (iplist_to_vectorlist matched_ip1)
            = some indices →
        homography_ip_matching1 matched_ip1 matched_ip2 ransac final_ip1 final_ip2
          = ⟨true, final_ip1 ++ indices.map fun i => matched_ip1.getD i ⟨0, 0⟩,
              final_ip2 ++ indices.map fun i => matched_ip2.getD i ⟨0, 0⟩⟩) := by
  by_cases h0 : matched_ip1.length = 0 ∨ matched_ip2.length = 0
  · have h0' : matched_ip1 = [] ∨ matched_ip2 = [] := by
      simpa [List.length_eq_zero] using h0
    have e : homography_ip_matching1 matched_ip1 matched_ip2 ransac final_ip1 final_ip2
        = ⟨false, final_ip1, final_ip2⟩ := by
      simp only [homography_ip_matching1, if_pos h0]
    rw [e]
    refine ⟨⟨fun _ => ?_, fun _ => rfl⟩, fun _ => ⟨rfl, rfl⟩, ?_⟩
    · rcases h0' with h | h
      · exact Or.inl h
      · exact Or.inr (Or.inl h)
    · intro indices h1 h2
      rcases h0' with h | h
      · exact absurd h h1
      · exact absurd h h2
  · have h1 : matched_ip1 ≠ [] := by
      intro h; exact h0 (Or.inl (by simp [h]))
    have h2 : matched_ip2 ≠ [] := by
      intro h; exact h0 (Or.inr (by simp [h]))
    cases hr : ransac (iplist_to_vectorlist matched_ip2) (iplist_to_vectorlist matched_ip1) with
    | none =>
      have e : homography_ip_matching1 matched_ip1 matched_ip2 ransac final_ip1 final_ip2
          = ⟨false, final_ip1, final_ip2⟩ := by
        simp only [homography_ip_matching1, if_neg h0, hr]
      rw [e]
      refine ⟨⟨fun _ => Or.inr (Or.inr rfl), fun _ => rfl⟩, fun _ => ⟨rfl, rfl⟩, ?_⟩
      intro indices _ _ h
      cases h
    | some indices =>
      have e : homography_ip_matching1 matched_ip1 matched_ip2 ransac final_ip1 final_ip2
          = ⟨true, final_ip1 ++ indices.map fun i => matched_ip1.getD i ⟨0, 0⟩,
              final_ip2 ++ indices.map fun i => matched_ip2.getD i ⟨0, 0⟩⟩ := by
        simp only [homography_ip_matching1, if_neg h0, hr, foldl_push_pairs]
      rw [e]
      refine ⟨⟨?_, ?_⟩, ?_, ?_⟩
      · intro h
        exact absurd h (by simp)
      · rintro (h | h | h)
        · exact absurd h h1
        · exact absurd h h2
        · exact absurd h (by simp)
      · intro h
        exact absurd h (by simp)
      · intro indices' _ _ h
        simp only [Option.some.injEq] at h
        subst h
        rfl

/-- C21 (witness): four candidate pairs of which RANSAC keeps the pairs 0, 2 and 3. -/
theorem C21_matching_result_witness :
    homography_ip_matching1 shiftedLeft shiftedRight (fun _ _ => some [0, 2, 3]) [] []
      = ⟨true, [] ++ [0, 2, 3].map fun i => shiftedLeft.getD i ⟨0, 0⟩,
          [] ++ [0, 2, 3].map fun i => shiftedRight.getD i ⟨0, 0⟩⟩ :=
  (C21_matching_result shiftedLeft shiftedRight (fun _ _ => some [0, 2, 3]) [] []).2.2
    [0, 2, 3] (by simp [shiftedLeft]) (by simp [shiftedRight]) rfl

/-! ## C22: the range carried forward in piecewise mode -/

/-- C22 (evaluation of the code where it departs from the claim).  For a tile whose seed
crop has the valid offsets `(2, 0)`, `(3, 1)` and whose spread crop has the largest spread
`(4, 2)`, the non-piecewise path carries forward the widened range `[-2, 7] x [-2, 3]`; in
piecewise mode, with an aligner that falls back to the identity, the range carried
forward is the unwidened `[2, 3] x [0, 1]`, whatever the ranges computed from the stored
homography were. -/
theorem C22_piecewise_range_ignores_spread (transformed_range upper_range lower_range : BBox2f) :
    prerasterize_seed_range false seedCrop spreadCrop 8 8 8 8 transformed_range upper_range
        lower_range fitThrows shiftedLeft shiftedRight (newBBox originTile 256 256)
      = .ok ⟨⟨⟨-2, -2⟩, ⟨7, 3⟩⟩, identity_matrix, identity_matrix⟩
    ∧ prerasterize_seed_range true seedCrop spreadCrop 8 8 8 8 transformed_range upper_range
        lower_range fitThrows shiftedLeft shiftedRight (newBBox originTile 256 256)
      = .ok ⟨⟨⟨2, 0⟩, ⟨3, 1⟩⟩, identity_matrix, identity_matrix⟩ := by
  have hseed : get_disparity_range seedCrop = ⟨⟨2, 0⟩, ⟨3, 1⟩⟩ := by
    norm_num [get_disparity_range, seedCrop]
  have hspread : get_disparity_range spreadCrop = ⟨⟨0, 0⟩, ⟨4, 2⟩⟩ := by
    norm_num [get_disparity_range, spreadCrop]
  have hchk : prerasterize_spread_check 8 8 8 8 = .ok true := rfl
  have havg : calcAverageDeltaY_ip shiftedLeft shiftedRight = 1 := by
    norm_num [calcAverageDeltaY_ip, accuDeltaY_ip, shiftedLeft, shiftedRight]
  constructor
  · simp only [prerasterize_seed_range, hchk, hseed, hspread]
    norm_num
    rfl
  · simp only [prerasterize_seed_range, hchk, hseed]
    norm_num [piecewiseAlignment_affineepipolar, havg, fitThrows]
    rfl

/-! ## C23: every value lands in exactly one bin -/

/-- C23.  For `num_bins > 0` and `min_val < max_val`, `histogram` returns `num_bins`
counts; every value, inside `[min_val, max_val]` or not, increments the one bin of index
`histogram_bin`, which lies in `[0, num_bins - 1]`, so the counts sum to the number of
input values. -/
theorem C23_counts_sum_to_number_of_values (values : List ℚ) (num_bins : Int)
    (min_val max_val : ℚ) (hn : 0 < num_bins) (_hlt : min_val < max_val) :
    ∃ hist centers, histogram values num_bins min_val max_val = .ok (hist, centers)
      ∧ hist.length = num_bins.toNat
      ∧ hist.sum = values.length
      ∧ ∀ v, 0 ≤ histogram_bin num_bins min_val max_val v
          ∧ histogram_bin num_bins min_val max_val v ≤ num_bins - 1 := by
  have hpos : ¬ ¬ (num_bins > 0) := not_not.mpr hn
  obtain ⟨f1, f2⟩ := foldl_incrementAt num_bins min_val max_val hn values
    (List.replicate num_bins.toNat 0) (by simp)
  refine ⟨_, _, by simp only [histogram, if_neg hpos]; rfl, f1, ?_,
    fun v => histogram_bin_range num_bins min_val max_val v hn⟩
  rw [f2]
  simp

/-- C23 (witness): four values, two of them outside `[0, 10]`, over ten bins. -/
theorem C23_counts_sum_to_number_of_values_witness :
    ∃ hist centers, histogram [-3, 0, 10, 25] 10 0 10 = .ok (hist, centers)
      ∧ hist.length = (10 : Int).toNat
      ∧ hist.sum = ([-3, 0, 10, 25] : List ℚ).length
      ∧ ∀ v, 0 ≤ histogram_bin 10 0 10 v ∧ histogram_bin 10 0 10 v ≤ 10 - 1 :=
  C23_counts_sum_to_number_of_values [-3, 0, 10, 25] 10 0 10 (by decide) (by norm_num)

/-! ## C24: the raster tile size -/

/-- C24 (counterexample).  The configured value `2^31 - 1 = 2147483647` is non-negative and
not a multiple of 16; the next multiple of 16 is `2^31`, which a 32-bit `int` cannot hold:
the tile size set in `main` is `-2147483648`, which is smaller than the configured value. -/
theorem C24_tile_size_overflows_near_int_max :
    (0 : Int) ≤ 2147483647
    ∧ main_raster_tile_size 2147483647 = ⟨-2147483648, -2147483648⟩
    ∧ ¬ ((2147483647 : Int) ≤ (main_raster_tile_size 2147483647).x) := by
  decide

/-- C24 (amended).  For every `corr_tile_size_ovr` with `0 ≤ corr_tile_size_ovr ≤ 2^31 - 16`
(the largest multiple of 16 that a 32-bit `int` holds), the tile size set in `main` is, in
both dimensions, the least multiple of 16 that is greater than or equal to the configured
value, and it is the configured value when that is a multiple of 16; it stays at most
`2^31 - 16`. -/
theorem C24_tile_size_least_multiple_of_16 (corr_tile_size_ovr : Int)
    (h : 0 ≤ corr_tile_size_ovr) (hb : corr_tile_size_ovr ≤ 2147483632) :
    (main_raster_tile_size corr_tile_size_ovr).x = (main_raster_tile_size corr_tile_size_ovr).y
    ∧ (16 : Int) ∣ (main_raster_tile_size corr_tile_size_ovr).x
    ∧ corr_tile_size_ovr ≤ (main_raster_tile_size corr_tile_size_ovr).x
    ∧ (∀ m : Int, 16 ∣ m → corr_tile_size_ovr ≤ m →
        (main_raster_tile_size corr_tile_size_ovr).x ≤ m)
    ∧ ((16 : Int) ∣ corr_tile_size_ovr →
        (main_raster_tile_size corr_tile_size_ovr).x = corr_tile_size_ovr)
    ∧ (main_raster_tile_size corr_tile_size_ovr).x ≤ 2147483632 := by
  have hmod : Int.tmod corr_tile_size_ovr 16 = corr_tile_size_ovr % 16 :=
    Int.tmod_eq_emod h (by norm_num)
  have hdiv : Int.tdiv corr_tile_size_ovr 16 = corr_tile_size_ovr / 16 :=
    Int.tdiv_eq_ediv h (by norm_num)
  simp only [main_raster_tile_size, hmod, hdiv]
  clear hmod hdiv
  by_cases hz : corr_tile_size_ovr % 16 = 0
  · rw [if_neg (not_not.mpr hz)]
    refine ⟨trivial, ?_, ?_, ?_, ?_, ?_⟩
    · omega
    · omega
    · intro m hm hle
      omega
    · intro hd
      rfl
    · exact hb
  · have hwrap : wrapInt32 ((corr_tile_size_ovr / 16 + 1) * 16)
        = (corr_tile_size_ovr / 16 + 1) * 16 := by
      unfold wrapInt32
      omega
    rw [if_pos hz, hwrap]
    refine ⟨trivial, ?_, ?_, ?_, ?_, ?_⟩
    · omega
    · omega
    · intro m hm hle
      omega
    · intro hd
      omega
    · omega

/-- C24 (witness): the configured size 1000 becomes 1008. -/
theorem C24_tile_size_least_multiple_of_16_witness :
    (16 : Int) ∣ (main_raster_tile_size 1000).x ∧ (1000 : Int) ≤ (main_raster_tile_size 1000).x :=
  ⟨(C24_tile_size_least_multiple_of_16 1000 (by decide) (by decide)).2.1,
   (C24_tile_size_least_multiple_of_16 1000 (by decide) (by decide)).2.2.1⟩

/-! ## C25: `strip_path` -/

/-- C25 (evaluation of the code where it departs from the claim).  With the prefix `run`,
the filename `data/run-left.tif` does not start with `run-`, so its stem `run-left` is the
specified result; `strip_path` finds `run-` in the middle, erases it and returns `left`.
On `run-left.tif`, which starts with `run-`, both give `left`. -/
theorem C25_strip_path_erases_inner_match :
    ¬ ("run".data ++ ['-']).isPrefixOf "data/run-left.tif".data
    ∧ specStripPath "run" "data/run-left.tif" = "run-left"
    ∧ strip_path "run" "data/run-left.tif" = "left"
    ∧ specStripPath "run" "run-left.tif" = "left"
    ∧ strip_path "run" "run-left.tif" = "left" := by
  refine ⟨by decide, by decide, by decide, by decide, by decide⟩

/-! ## C26: `adjust_ip_for_align_matrix` -/

theorem adjustLoop_getElem (L R : Matrix3) (ls rs : List InterestPoint) (i : Nat)
    (l r : InterestPoint) (hl : ls[i]? = some l) (hr : rs[i]? = some r) :
    (adjustLoop L R ls rs).1[i]? = some (adjustPair L R l r).1
    ∧ (adjustLoop L R ls rs).2[i]? = some (adjustPair L R l r).2 := by
  induction ls generalizing rs i with
  | nil => simp at hl
  | cons a ls ih =>
    cases rs with
    | nil => simp at hr
    | cons b rs =>
      cases i with
      | zero =>
        simp only [List.getElem?_cons_zero, Option.some.injEq] at hl hr
        subst hl hr
        simp [adjustLoop]
      | succ n =>
        simp only [List.getElem?_cons_succ] at hl hr
        simpa [adjustLoop] using ih rs n hl hr

theorem adjustLoop_length (L R : Matrix3) (ls rs : List InterestPoint) :
    (adjustLoop L R ls rs).1.length = ls.length ∧ (adjustLoop L R ls rs).2.length = rs.length := by
  induction ls generalizing rs with
  | nil => simp [adjustLoop]
  | cons a ls ih =>
    cases rs with
    | nil => simp [adjustLoop]
    | cons b rs => simp [adjustLoop, ih rs]

/-- C26.  When neither alignment file exists, `adjust_ip_for_align_matrix` returns the
input `ip_scale` and leaves both lists unchanged.  When at least one exists it returns 1,
keeps the lengths of the lists, and replaces each pair by its images under the left and
right alignment matrices divided by their homogeneous coordinate, except that a pair for
which either image has a zero homogeneous coordinate stays unchanged on both sides. -/
theorem C26_adjust_ip (left_align right_align : Bool) (left_file_matrix right_file_matrix : Matrix3)
    (ip_left ip_right : List InterestPoint) (ip_scale : ℚ) :
    (left_align = false → right_align = false →
        adjust_ip_for_align_matrix left_align right_align left_file_matrix right_file_matrix
          ip_left ip_right ip_scale = ⟨ip_scale, ip_left, ip_right⟩)
    ∧ ((left_align = true ∨ right_align = true) →
        (adjust_ip_for_align_matrix left_align right_align left_file_matrix
            right_file_matrix ip_left ip_right ip_scale).scale = 1
        ∧ (adjust_ip_for_align_matrix left_align right_align left_file_matrix
            right_file_matrix ip_left ip_right ip_scale).ip_left.length = ip_left.length
        ∧ (adjust_ip_for_align_matrix left_align right_align left_file_matrix
            right_file_matrix ip_left ip_right ip_scale).ip_right.length = ip_right.length
        ∧ ∀ (i : Nat) (l r : InterestPoint), ip_left[i]? = some l → ip_right[i]? = some r →
            (((specAlignMatrix left_align left_file_matrix).mulVec ⟨l.x, l.y, 1⟩).z ≠ 0
              ∧ ((specAlignMatrix right_align right_file_matrix).mulVec ⟨r.x, r.y, 1⟩).z ≠ 0 →
              (adjust_ip_for_align_matrix left_align right_align left_file_matrix
                  right_file_matrix ip_left ip_right ip_scale).ip_left[i]?
                = some
                  ⟨((specAlignMatrix left_align left_file_matrix).mulVec ⟨l.x, l.y, 1⟩).x
                      / ((specAlignMatrix left_align left_file_matrix).mulVec ⟨l.x, l.y, 1⟩).z,
                   ((specAlignMatrix left_align left_file_matrix).mulVec ⟨l.x, l.y, 1⟩).y
                      / ((specAlignMatrix left_align left_file_matrix).mulVec ⟨l.x, l.y, 1⟩).z⟩
              ∧ (adjust_ip_for_align_matrix left_align right_align left_file_matrix
                  right_file_matrix ip_left ip_right ip_scale).ip_right[i]?
                = some
                  ⟨((specAlignMatrix right_align right_file_matrix).mulVec ⟨r.x, r.y, 1⟩).x
                      / ((specAlignMatrix right_align right_file_matrix).mulVec
                          ⟨r.x, r.y, 1⟩).z,
                   ((specAlignMatrix right_align right_file_matrix).mulVec ⟨r.x, r.y, 1⟩).y
                      / ((specAlignMatrix right_align right_file_matrix).mulVec
                          ⟨r.x, r.y, 1⟩).z⟩)
            ∧ ((((specAlignMatrix left_align left_file_matrix).mulVec ⟨l.x, l.y, 1⟩).z = 0
                ∨ ((specAlignMatrix right_align right_file_matrix).mulVec ⟨r.x, r.y, 1⟩).z = 0) →
              (adjust_ip_for_align_matrix left_align right_align left_file_matrix
                  right_file_matrix ip_left ip_right ip_scale).ip_left[i]? = some l
              ∧ (adjust_ip_for_align_matrix left_align right_align left_file_matrix
                  right_file_matrix ip_left ip_right ip_scale).ip_right[i]? = some r)) := by
  constructor
  · intro h1 h2
    simp [adjust_ip_for_align_matrix, h1, h2]
  · intro h
    have hc : (!left_align && !right_align) = false := by
      rcases h with h | h <;> simp [h]
    have e : adjust_ip_for_align_matrix left_align right_align left_file_matrix
        right_file_matrix ip_left ip_right ip_scale
        = ⟨1, (adjustLoop (specAlignMatrix left_align left_file_matrix)
                (specAlignMatrix right_align right_file_matrix) ip_left ip_right).1,
            (adjustLoop (specAlignMatrix left_align left_file_matrix)
                (specAlignMatrix right_align right_file_matrix) ip_left ip_right).2⟩ := by
      simp only [adjust_ip_for_align_matrix, hc, specAlignMatrix]
      rfl
    rw [e]
    obtain ⟨len1, len2⟩ := adjustLoop_length (specAlignMatrix left_align left_file_matrix)
      (specAlignMatrix right_align right_file_matrix) ip_left ip_right
    refine ⟨rfl, len1, len2, ?_⟩
    intro i l r hl hr
    obtain ⟨g1, g2⟩ := adjustLoop_getElem (specAlignMatrix left_align left_file_matrix)
      (specAlignMatrix right_align right_file_matrix) ip_left ip_right i l r hl hr
    simp only [g1, g2]
    constructor
    · rintro ⟨hz1, hz2⟩
      simp [adjustPair, hz1, hz2, Vector3.divScalar]
    · intro hz
      simp [adjustPair, hz]

/-- C26 (witness): only the right alignment file exists and holds `shiftUp`. -/
theorem C26_adjust_ip_witness :
    (adjust_ip_for_align_matrix false true identity_matrix shiftUp shiftedLeft shiftedRight
        (1 / 4)).scale = 1 :=
  ((C26_adjust_ip false true identity_matrix shiftUp shiftedLeft shiftedRight (1 / 4)).2
    (Or.inr rfl)).1

/-! ## C27: the histogram range of `approximate_search_range` -/

/-- C27 (evaluation of the code where it departs from the claim).  For the single
correspondence `(0, 0) -> (5, 3)` at scale 1 both limits of each histogram are the one
observed offset, so the ranges `max_dx - min_dx` and `max_dy - min_dy` handed to
`histogram` are zero, and the bin assignment `(val - min_val)/range` divides by zero. -/
theorem C27_single_match_gives_zero_range :
    offsetStats 1 OffsetStats.init [⟨0, 0⟩] [⟨5, 3⟩] = ⟨[5], [3], 5, 3, 5, 3⟩
    ∧ (offsetStats 1 OffsetStats.init [⟨0, 0⟩] [⟨5, 3⟩]).max_dx
        - (offsetStats 1 OffsetStats.init [⟨0, 0⟩] [⟨5, 3⟩]).min_dx = 0
    ∧ (offsetStats 1 OffsetStats.init [⟨0, 0⟩] [⟨5, 3⟩]).max_dy
        - (offsetStats 1 OffsetStats.init [⟨0, 0⟩] [⟨5, 3⟩]).min_dy = 0 := by
  have hmin : DBL_MIN ≤ 1 := by
    unfold DBL_MIN
    rw [div_le_one (by positivity)]
    exact one_le_pow₀ (by norm_num)
  have hmax : (5 : ℚ) < DBL_MAX := by
    unfold DBL_MAX
    have : (1 : ℚ) ≤ 2 ^ 971 := one_le_pow₀ (by norm_num)
    nlinarith
  have h : offsetStats 1 OffsetStats.init [⟨0, 0⟩] [⟨5, 3⟩] = ⟨[5], [3], 5, 3, 5, 3⟩ := by
    have a1 : (5 : ℚ) - 0 < DBL_MAX := by linarith
    have a2 : (3 : ℚ) - 0 < DBL_MAX := by linarith
    have a3 : (5 : ℚ) - 0 > DBL_MIN := by linarith
    have a4 : (3 : ℚ) - 0 > DBL_MIN := by linarith
    simp only [offsetStats, OffsetStats.step, OffsetStats.init, one_mul, if_pos a1, if_pos a2,
      if_pos a3, if_pos a4, List.nil_append]
    norm_num
  refine ⟨h, ?_, ?_⟩ <;> rw [h] <;> norm_num

/-! ## C28: the verdict does not depend on the tile box -/

/-- C28.  For any two tile boxes (and, in the single-matrix form, any two inlier index
lists) with equal matrices, points and threshold, `check_homography_matrix` returns the
same boolean; the box only enters the debug lists, whose verdict is that boolean. -/
theorem C28_verdict_independent_of_bbox (L R H : Matrix3) (left_points right_points : List Vector3)
    (minAvgDeltaY : ℚ) (indices1 indices2 : List Nat) (bbox1 bbox2 : BBox2i) :
    check_homography_matrix L R left_points right_points minAvgDeltaY bbox1
        = check_homography_matrix L R left_points right_points minAvgDeltaY bbox2
    ∧ check_homography_matrix_single H left_points right_points indices1 minAvgDeltaY bbox1
        = check_homography_matrix_single H left_points right_points indices2 minAvgDeltaY bbox2
    ∧ (check_homography_matrix_trace L R left_points right_points minAvgDeltaY bbox1).verdict
        = check_homography_matrix L R left_points right_points minAvgDeltaY bbox2
    ∧ (check_homography_matrix_single_trace H left_points right_points indices1 minAvgDeltaY
          bbox1).verdict
        = check_homography_matrix_single H left_points right_points indices2 minAvgDeltaY
            bbox2 := by
  refine ⟨rfl, rfl, ?_, ?_⟩
  · simp only [check_homography_matrix_trace, check_homography_matrix]
    split_ifs <;> rfl
  · simp only [check_homography_matrix_single_trace, check_homography_matrix_single]
    split_ifs <;> rfl

/-! ## C29: the indices read by the inverse-warp loop -/

/-- C29 (evaluation of the code where it departs from the claim).  For the single tile
`[0,1024) x [0,1024)` of a 1024x1024 image the margin is cropped away, `newBBox` is the
tile itself and the inverse-warped result is 1024 pixels wide and high; the loop reads the
column `i + margin` up to `1023 + 50 = 1073`, outside the result from `i = 974` on.  For
the interior tile `[64,128) x [64,128)` of a 256x256 image every index read is inside. -/
theorem C29_index_leaves_inverse_warped_result :
    newBBox wholeImageTile 1024 1024 = wholeImageTile
    ∧ (newBBox wholeImageTile 1024 1024).width = 1024
    ∧ (newBBox wholeImageTile 1024 1024).height = 1024
    ∧ (974 : Int) < wholeImageTile.width
    ∧ ¬ ((974 : Int) + margin < (newBBox wholeImageTile 1024 1024).width)
    ∧ ¬ ((974 : Int) + margin < (newBBox wholeImageTile 1024 1024).height)
    ∧ (interiorTile.width - 1 + margin < (newBBox interiorTile 256 256).width
      ∧ interiorTile.height - 1 + margin < (newBBox interiorTile 256 256).height) := by
  decide

/-! ## C30: the success path improves the vertical alignment -/

/-- An accepted pair has a transformed average strictly below the threshold. -/
theorem check_homography_matrix_true_lt (L R : Matrix3) (lp rp : List Vector3) (thr : ℚ)
    (bbox : BBox2i) (h : check_homography_matrix L R lp rp thr bbox = true) :
    calcAverageDeltaY ((transformedPoints L R lp rp).map Prod.fst)
        ((transformedPoints L R lp rp).map Prod.snd) < thr := by
  unfold check_homography_matrix at h
  simp only at h
  split_ifs at h with h1 h2 h3
  by_contra hc
  exact h3 (Or.inr (not_lt.mp hc))

/-- On a non-empty list of pairs whose transformed points have non-zero homogeneous
coordinates, the average computed by the code is the mean residual of the normalised
points. -/
theorem calcAverageDeltaY_transformed (L R : Matrix3) (lp rp : List Vector3)
    (hne : lp ≠ []) (hlen : lp.length = rp.length)
    (hz : ∀ p ∈ List.zip lp rp,
      (L.mulVec ⟨p.1.x, p.1.y, 1⟩).z ≠ 0 ∧ (R.mulVec ⟨p.2.x, p.2.y, 1⟩).z ≠ 0) :
    calcAverageDeltaY ((transformedPoints L R lp rp).map Prod.fst)
        ((transformedPoints L R lp rp).map Prod.snd) = meanAbsDeltaY L R lp rp := by
  have hlen0 : lp.length ≠ 0 := by simpa using hne
  unfold calcAverageDeltaY meanAbsDeltaY
  rw [List.length_map, transformedPoints_length L R _ _ hlen, if_pos hlen0,
    accuDeltaY_eq_sum, zero_add, transformedPoints_residuals L R _ _ hz]

theorem calcAverageDeltaY_ip_eq_raw (l r : List InterestPoint) (hne : l ≠ []) :
    calcAverageDeltaY_ip l r = rawMeanAbsDeltaY l r := by
  have hlen0 : l.length ≠ 0 := by simpa using hne
  unfold calcAverageDeltaY_ip rawMeanAbsDeltaY
  rw [if_pos hlen0, accuDeltaY_ip_eq_sum, zero_add]

/-- C30.  Whenever `piecewiseAlignment_affineepipolar` returns through its success path
(the fit returned and was accepted, so the range is that of `calcSearchRange`), the mean
absolute vertical offset of the correspondences transformed by the returned matrices
(taken on the normalised points, which have non-zero homogeneous coordinates) is strictly
smaller than the mean absolute vertical offset of the raw correspondences. -/
theorem C30_success_improves_vertical_offset (fit : AffineEpipolarFit)
    (ip1 ip2 : List InterestPoint) (bbox : BBox2i) (left_size right_size : Vector2i)
    (left_matrix right_matrix : Matrix3) (local_search_range : BBox2f)
    (sz : Vector2i) (L R : Matrix3)
    (hfit : fit left_size right_size ip1 ip2 = some (sz, L, R))
    (hchk : check_homography_matrix L R (iplist_to_vectorlist ip1) (iplist_to_vectorlist ip2)
      (calcAverageDeltaY_ip ip1 ip2) bbox = true)
    (hlen : ip1.length = ip2.length)
    (hz : ∀ p ∈ List.zip ip1 ip2,
      (L.mulVec ⟨p.1.x, p.1.y, 1⟩).z ≠ 0 ∧ (R.mulVec ⟨p.2.x, p.2.y, 1⟩).z ≠ 0) :
    (piecewiseAlignment_affineepipolar fit ip1 ip2 bbox left_size right_size
        left_matrix right_matrix local_search_range)
      = ⟨calcSearchRange ip1 ip2 L R 2, sz, L, R⟩
    ∧ meanAbsDeltaY
          (piecewiseAlignment_affineepipolar fit ip1 ip2 bbox left_size right_size
            left_matrix right_matrix local_search_range).left_matrix
          (piecewiseAlignment_affineepipolar fit ip1 ip2 bbox left_size right_size
            left_matrix right_matrix local_search_range).right_matrix
          (iplist_to_vectorlist ip1) (iplist_to_vectorlist ip2)
        < rawMeanAbsDeltaY ip1 ip2 := by
  have hne : ip1 ≠ [] := by
    intro h
    have := check_homography_matrix_true_ne_nil _ _ _ _ _ _ hchk
    simp [h, iplist_to_vectorlist] at this
  have hcond : calcAverageDeltaY_ip ip1 ip2 ≠ -1 ∨ calcAverageDeltaY_ip ip1 ip2 ≥ 3 := by
    left
    intro h
    have := calcAverageDeltaY_ip_nonneg ip1 ip2 hne
    rw [h] at this
    norm_num at this
  have hres : piecewiseAlignment_affineepipolar fit ip1 ip2 bbox left_size right_size
      left_matrix right_matrix local_search_range
      = ⟨calcSearchRange ip1 ip2 L R 2, sz, L, R⟩ := by
    unfold piecewiseAlignment_affineepipolar
    simp only
    rw [if_pos hcond]
    simp [hfit, hchk]
  refine ⟨hres, ?_⟩
  rw [hres]
  simp only
  have hne' : iplist_to_vectorlist ip1 ≠ [] := by
    simpa [iplist_to_vectorlist] using hne
  have hlen' : (iplist_to_vectorlist ip1).length = (iplist_to_vectorlist ip2).length := by
    simpa [iplist_to_vectorlist] using hlen
  have hz' : ∀ p ∈ List.zip (iplist_to_vectorlist ip1) (iplist_to_vectorlist ip2),
      (L.mulVec ⟨p.1.x, p.1.y, 1⟩).z ≠ 0 ∧ (R.mulVec ⟨p.2.x, p.2.y, 1⟩).z ≠ 0 := by
    intro p hp
    simp only [iplist_to_vectorlist, List.zip_map, List.mem_map] at hp
    obtain ⟨q, hq, rfl⟩ := hp
    exact hz q hq
  have hlt := check_homography_matrix_true_lt _ _ _ _ _ _ hchk
  rw [calcAverageDeltaY_transformed L R _ _ hne' hlen' hz',
    calcAverageDeltaY_ip_eq_raw ip1 ip2 hne] at hlt
  exact hlt

/-- C30 (witness): the matches `shiftedLeft`/`shiftedRightHalf` with the fit
`(identity, shiftUp)`: the mean vertical offset drops from 1 to 0. -/
theorem C30_success_improves_vertical_offset_witness :
    meanAbsDeltaY
        (piecewiseAlignment_affineepipolar fitShiftUp shiftedLeft shiftedRightHalf originTile
          ⟨64, 64⟩ ⟨64, 64⟩ identity_matrix identity_matrix unitRange).left_matrix
        (piecewiseAlignment_affineepipolar fitShiftUp shiftedLeft shiftedRightHalf originTile
          ⟨64, 64⟩ ⟨64, 64⟩ identity_matrix identity_matrix unitRange).right_matrix
        (iplist_to_vectorlist shiftedLeft) (iplist_to_vectorlist shiftedRightHalf)
      < rawMeanAbsDeltaY shiftedLeft shiftedRightHalf :=
  (C30_success_improves_vertical_offset fitShiftUp shiftedLeft shiftedRightHalf originTile
    ⟨64, 64⟩ ⟨64, 64⟩ identity_matrix identity_matrix unitRange ⟨64, 63⟩ identity_matrix
    shiftUp rfl (by rw [check_shiftedRightHalf.1]; exact check_shiftedRightHalf.2)
    (by simp [shiftedLeft, shiftedRightHalf])
    (by simp [shiftedLeft, shiftedRightHalf, Matrix3.mulVec, identity_matrix, shiftUp])).2

end StereoCorr
